import Mathlib

/-!
Verification of the log-processing core of vglog-filter.

Lines are modelled as `List Char` (the program treats them as bytes; all
inputs of interest are ASCII, where Lean's `Char` and the program's bytes
coincide).  The character classifiers mirror the C-locale `std::isdigit`,
`std::isxdigit` and `std::isspace` on ASCII.

The canonicalization passes (`src/src/canonicalization.cpp`) and the raw
scrubbing passes (`LogProcessor::replace_patterns`) are imperative loops
that scan a string left to right, replacing matches and resuming after the
replacement (never rescanning emitted text).  Each is embedded as a
fuel-indexed recursion; the fuel is the length of the string being scanned,
which always suffices because every step consumes at least one input
character per unit of fuel.
-/

namespace Vglog

/-- C-locale `isdigit` on ASCII. -/
def isDigitB (c : Char) : Bool := '0' ≤ c && c ≤ '9'

/-- C-locale `isxdigit` on ASCII. -/
def isHexB (c : Char) : Bool :=
  isDigitB c || ('a' ≤ c && c ≤ 'f') || ('A' ≤ c && c ≤ 'F')

/-- C-locale `isspace` on ASCII: space, TAB, LF, VT, FF, CR. -/
def isWsB (c : Char) : Bool :=
  c = ' ' || c = '\t' || c = '\n' || c = '\x0b' || c = '\x0c' || c = '\r'

/-! ### Canonicalization (`canonicalization.cpp`) -/

/-- Scanner of `replace_addr_pattern`: each `0x` followed by one or more hex
digits becomes the literal `0xADDR`; the scan resumes after the inserted
text. -/
def addrGo : Nat → List Char → List Char
  | 0, l => l
  | _ + 1, [] => []
  | f + 1, c :: cs =>
    if c = '0' ∧ cs.head? = some 'x' ∧ cs.tail.takeWhile isHexB ≠ [] then
      '0' :: 'x' :: 'A' :: 'D' :: 'D' :: 'R' :: addrGo f (cs.tail.dropWhile isHexB)
    else c :: addrGo f cs

/-- `replace_addr_pattern` of `canonicalization.cpp`. -/
def replace_addr_pattern (l : List Char) : List Char := addrGo l.length l

/-- Scanner of `replace_line_pattern`: each `:` followed by one or more
decimal digits becomes `:LINE`. -/
def lineGo : Nat → List Char → List Char
  | 0, l => l
  | _ + 1, [] => []
  | f + 1, c :: cs =>
    if c = ':' ∧ cs.takeWhile isDigitB ≠ [] then
      ':' :: 'L' :: 'I' :: 'N' :: 'E' :: lineGo f (cs.dropWhile isDigitB)
    else c :: lineGo f cs

/-- `replace_line_pattern` of `canonicalization.cpp`. -/
def replace_line_pattern (l : List Char) : List Char := lineGo l.length l

/-- Scanner of `replace_array_pattern`: each `[`, zero or more decimal
digits, `]` becomes `[]`. -/
def arrGo : Nat → List Char → List Char
  | 0, l => l
  | _ + 1, [] => []
  | f + 1, c :: cs =>
    if c = '[' ∧ (cs.dropWhile isDigitB).head? = some ']' then
      '[' :: ']' :: arrGo f (cs.dropWhile isDigitB).tail
    else c :: arrGo f cs

/-- `replace_array_pattern` of `canonicalization.cpp`. -/
def replace_array_pattern (l : List Char) : List Char := arrGo l.length l

/-- Scanner of `replace_template_pattern`: each `<` up to and including the
next `>` becomes `<T>`; a `<` with no later `>` stops the scan, leaving the
remainder unchanged. -/
def tmplGo : Nat → List Char → List Char
  | 0, l => l
  | _ + 1, [] => []
  | f + 1, c :: cs =>
    if c = '<' then
      if '>' ∈ cs then '<' :: 'T' :: '>' :: tmplGo f (cs.dropWhile (· ≠ '>')).tail
      else c :: cs
    else c :: tmplGo f cs

/-- `replace_template_pattern` of `canonicalization.cpp`. -/
def replace_template_pattern (l : List Char) : List Char := tmplGo l.length l

/-- Scanner of `replace_ws_pattern`: a maximal run of two or more whitespace
bytes becomes a single space; a lone whitespace byte is left as it is
(the source replaces only when `pos > start + 1`). -/
def wsGo : Nat → List Char → List Char
  | 0, l => l
  | _ + 1, [] => []
  | f + 1, c :: cs =>
    if isWsB c ∧ cs.head?.any isWsB then ' ' :: wsGo f (cs.dropWhile isWsB)
    else c :: wsGo f cs

/-- `replace_ws_pattern` of `canonicalization.cpp`. -/
def replace_ws_pattern (l : List Char) : List Char := wsGo l.length l

/-- `canonicalization::trim_view`: drop leading and trailing whitespace. -/
def trim_view (l : List Char) : List Char := (l.dropWhile isWsB).rdropWhile isWsB

/-- `canonicalization::canon`: the five substitutions in source order,
then trimming. -/
def canon (s : List Char) : List Char :=
  trim_view (replace_ws_pattern (replace_template_pattern (replace_array_pattern
    (replace_line_pattern (replace_addr_pattern s)))))

/-! ### Pattern occurrences

`occAny M l` holds when the head matcher `M` accepts some suffix of `l`,
i.e. when the pattern recognized by `M` occurs somewhere in `l`.  The five
matchers below describe exactly the sites at which the five substitution
scanners of `canon` fire (for the template scanner, the sites at which it
fires with a result other than the text it replaces). -/

/-- Does the head matcher `M` accept some suffix of the list? -/
def occAny (M : List Char → Bool) : List Char → Bool
  | [] => M []
  | c :: cs => M (c :: cs) || occAny M cs

/-- Site of the address rule: `0x` followed by a hex digit. -/
def addrAt : List Char → Bool
  | a :: b :: c :: _ => a == '0' && b == 'x' && isHexB c
  | _ => false

/-- Site of the line-number rule: `:` followed by a decimal digit. -/
def lineAt : List Char → Bool
  | c :: d :: _ => c == ':' && isDigitB d
  | _ => false

/-- Site of the array rule with at least one digit: `[`, a nonempty digit
run, `]`.  (The digit-free `[]` is rewritten to itself and is not a
site.) -/
def arrAt : List Char → Bool
  | c :: rest =>
    c == '[' && !(rest.takeWhile isDigitB).isEmpty &&
      ((rest.dropWhile isDigitB).head? == some ']')
  | [] => false

/-- Site at which the template rule rewrites to something new: a `<` with a
later `>` whose two following characters are not exactly `T>`. -/
def tmplBadAt : List Char → Bool
  | c :: rest => c == '<' && decide ('>' ∈ rest) && !(rest.take 2 == ['T', '>'])
  | [] => false

/-- Site of the whitespace rule: two adjacent whitespace bytes. -/
def wsPairAt : List Char → Bool
  | a :: b :: _ => isWsB a && isWsB b
  | _ => false

/-! ### Raw scrubbing (`LogProcessor::replace_patterns`) -/

/-- Scanner of the address removal in `replace_patterns`: each `0x` with at
least one following hex digit is deleted; the scan resumes at the deletion
point (`pos = start`), so text already emitted is never rescanned. -/
def scrubAddrGo : Nat → List Char → List Char
  | 0, l => l
  | _ + 1, [] => []
  | f + 1, c :: cs =>
    if c = '0' ∧ cs.head? = some 'x' ∧ cs.tail.takeWhile isHexB ≠ [] then
      scrubAddrGo f (cs.tail.dropWhile isHexB)
    else c :: scrubAddrGo f cs

/-- Scanner of the literal removals in `replace_patterns` (`at : `, `by : `):
each occurrence of `pat` is deleted, resuming at the deletion point. -/
def scrubLitGo (pat : List Char) : Nat → List Char → List Char
  | 0, l => l
  | _ + 1, [] => []
  | f + 1, c :: cs =>
    if pat.isPrefixOf (c :: cs) then scrubLitGo pat f ((c :: cs).drop pat.length)
    else c :: scrubLitGo pat f cs

/-- Scanner of the question-mark removal in `replace_patterns`: a maximal
run of three or more `?` is deleted; shorter runs are kept. -/
def scrubQGo : Nat → List Char → List Char
  | 0, l => l
  | _ + 1, [] => []
  | f + 1, c :: cs =>
    if c = '?' then
      if 3 ≤ ((c :: cs).takeWhile (· = '?')).length then
        scrubQGo f ((c :: cs).dropWhile (· = '?'))
      else (c :: cs).takeWhile (· = '?') ++ scrubQGo f ((c :: cs).dropWhile (· = '?'))
    else c :: scrubQGo f cs

/-- `LogProcessor::replace_patterns`: remove `0x`-hex runs, then every
`at : `, then every `by : `, then every run of three or more `?`. -/
def replace_patterns (l : List Char) : List Char :=
  let s1 := scrubAddrGo l.length l
  let s2 := scrubLitGo "at : ".data s1.length s1
  let s3 := scrubLitGo "by : ".data s2.length s2
  scrubQGo s3.length s3

/-! ### Line classifiers (`log_processor.cpp`) -/

/-- Substring test, as `std::string::find(pat) != npos`. -/
def containsSub : List Char → List Char → Bool
  | [], pat => pat.isPrefixOf []
  | c :: t, pat => pat.isPrefixOf (c :: t) || containsSub t pat

/-- `LogProcessor::matches_vg_line`.  Mirrors the hand-rolled scanner: size
at least 4, `==`, a scan over decimal digits ending at index `i`, the checks
`i < 4` and `i >= size - 1`, then `==` at `i`. -/
def matches_vg_line (l : List Char) : Bool :=
  if l.length < 4 then false
  else
    match l with
    | a :: b :: rest =>
      if a = '=' ∧ b = '=' then
        let i := 2 + (rest.takeWhile isDigitB).length
        if i < 4 then false
        else if l.length ≤ i + 1 then false
        else (l.get? i == some '=') && (l.get? (i + 1) == some '=')
      else false
    | _ => false

/-- Embeds `LogProcessor::replace_prefix`: if the line is a vg-line, drop
`==`, the digit run, `==`, and any following whitespace. -/
def replace_pfx (l : List Char) : List Char :=
  if matches_vg_line l then
    match l with
    | _ :: _ :: rest =>
      ((rest.drop (rest.takeWhile isDigitB).length).drop 2).dropWhile isWsB
    | _ => l
  else l

/-- The ten report-start substrings of `matches_start_pattern`. -/
def startPats : List (List Char) :=
  ["Invalid read".data, "Invalid write".data, "Syscall param".data,
   "Use of uninitialised".data, "Conditional jump".data, "bytes in ".data,
   "still reachable".data, "possibly lost".data, "definitely lost".data,
   "Process terminating".data]

/-- `LogProcessor::matches_start_pattern`. -/
def matches_start_pattern (l : List Char) : Bool := startPats.any (containsSub l)

/-- `LogProcessor::matches_bytes_head`.  Mirrors the scanner: find the first
digit run, require the literal ` bytes in ` (with at least one byte after
it, from `pos + 10 >= size`), find the next digit run, require ` blocks`
with at least one byte after it (from `pos + 7 >= size`). -/
def matches_bytes_head (l : List Char) : Bool :=
  let l1 := l.dropWhile (fun c => !isDigitB c)
  if l1.isEmpty then false
  else
    let l2 := l1.dropWhile isDigitB
    if l2.length ≤ 10 then false
    else if l2.take 10 ≠ " bytes in ".data then false
    else
      let l3 := (l2.drop 10).dropWhile (fun c => !isDigitB c)
      if l3.isEmpty then false
      else
        let l4 := l3.dropWhile isDigitB
        if l4.length ≤ 7 then false
        else l4.take 7 == " blocks".data

/-! ### The processor state machine (`LogProcessor`) -/

/-- The run configuration fields the core reads (`Options`). -/
structure Opts where
  depth : Nat
  trim : Bool
  scrub_raw : Bool
  stream_mode : Bool
  marker : List Char
deriving Repr, DecidableEq

/-- The mutable state of `LogProcessor`, with `out` recording the bytes
written to the sink so far. -/
structure ProcState where
  raw : List Char
  sig : List Char
  sigLines : List (List Char)
  seen : List (List Char)
  pending : List (List Char)
  marker_found : Bool
  out : List Char
deriving Repr, DecidableEq

/-- Fresh processor state. -/
def initState : ProcState := ⟨[], [], [], [], [], false, []⟩

/-- The fatal bounds violations of the core. -/
inductive PErr
  | lineTooLong
  | blockTooBig
  | tooManyPending
deriving Repr, DecidableEq

deriving instance DecidableEq for Except

/-- `MAX_LINE_LENGTH` (1 MiB). -/
def maxLineLength : Nat := 1048576

/-- `MAX_BLOCK_SIZE` (10 MiB). -/
def maxBlockSize : Nat := 10485760

/-- `MAX_PENDING_BLOCKS`. -/
def maxPendingBlocks : Nat := 1000

/-- `LogProcessor::generate_signature_key`: for positive depth, the first
`min(depth, #sigLines)` canonical lines each followed by a newline;
otherwise the whole signature buffer. -/
def generate_signature_key (o : Opts) (st : ProcState) : List Char :=
  if 0 < o.depth then ((st.sigLines.take o.depth).map (· ++ ['\n'])).flatten
  else st.sig

/-- `LogProcessor::clear_current_state`. -/
def clear_current_state (st : ProcState) : ProcState :=
  { st with raw := [], sig := [], sigLines := [] }

/-- `LogProcessor::reset_epoch`: clear pending, seen and the current block. -/
def reset_epoch (st : ProcState) : ProcState :=
  { st with pending := [], seen := [], raw := [], sig := [], sigLines := [] }

/-- `LogProcessor::flush`: empty raw buffers are dropped; the block size is
validated; the signature key is inserted into `seen`, and on a fresh key the
block is appended to `pending` (stream mode, after validating the pending
count) or written to the sink. -/
def flush (o : Opts) (st : ProcState) : Except PErr ProcState :=
  if st.raw = [] then .ok (clear_current_state st)
  else if maxBlockSize < st.raw.length then .error .blockTooBig
  else
    let key := generate_signature_key o st
    if key ∈ st.seen then .ok (clear_current_state st)
    else if o.stream_mode then
      if maxPendingBlocks < st.pending.length then .error .tooManyPending
      else .ok { clear_current_state st with
                 seen := key :: st.seen,
                 pending := st.pending ++ [st.raw ++ ['\n']] }
    else .ok { clear_current_state st with
               seen := key :: st.seen,
               out := st.out ++ st.raw ++ ['\n'] }

/-- `LogProcessor::process_raw_line`. -/
def process_raw_line (o : Opts) (p : List Char) : List Char :=
  if o.scrub_raw then replace_patterns p else p

/-- Appending one processed line to the current block: the scrubbed raw
line and the canonical line, each newline-terminated. -/
def addLineState (o : Opts) (p : List Char) (st : ProcState) : ProcState :=
  { st with
    raw := st.raw ++ process_raw_line o p ++ ['\n'],
    sig := st.sig ++ canon p ++ ['\n'],
    sigLines := st.sigLines ++ [canon p] }

/-- `LogProcessor::process_line`. -/
def process_line (o : Opts) (st : ProcState) (line : List Char) :
    Except PErr ProcState :=
  if o.trim ∧ o.stream_mode ∧ containsSub line o.marker then
    .ok { reset_epoch st with marker_found := true }
  else if !matches_vg_line line then .ok st
  else
    let p := replace_pfx line
    let addLine := fun (st1 : ProcState) =>
      if trim_view (process_raw_line o p) = [] then Except.ok st1
      else Except.ok (addLineState o p st1)
    if matches_start_pattern p then
      match flush o st with
      | .error e => .error e
      | .ok st1 => if matches_bytes_head p then .ok st1 else addLine st1
    else addLine st

/-- The read loop shared by both entry points: validate each line's length,
then feed it to `process_line`; stop at the first fatal error, reporting the
state before the failing step (nothing of the failing step reaches the
sink). -/
def feedLines (o : Opts) : ProcState → List (List Char) → ProcState × Option PErr
  | st, [] => (st, none)
  | st, l :: ls =>
    if maxLineLength < l.length then (st, some .lineTooLong)
    else
      match process_line o st l with
      | .error e => (st, some e)
      | .ok st' => feedLines o st' ls

/-- `LogProcessor::output_pending_blocks`. -/
def output_pending_blocks (o : Opts) (st : ProcState) : ProcState :=
  if !o.trim || st.marker_found then { st with out := st.out ++ st.pending.flatten }
  else st

/-- The tail of `process_stream` from an arbitrary state: feed every line,
final flush, then write the pending blocks. -/
def runFrom (o : Opts) (st : ProcState) (lines : List (List Char)) :
    ProcState × Option PErr :=
  match feedLines o st lines with
  | (st1, some e) => (st1, some e)
  | (st1, none) =>
    match flush o st1 with
    | .error e => (st1, some e)
    | .ok st2 => (output_pending_blocks o st2, none)

/-- `LogProcessor::process_stream`. -/
def process_stream (o : Opts) (lines : List (List Char)) : ProcState × Option PErr :=
  runFrom o initState lines

/-- `LogProcessor::find_marker`: one plus the index of the last line
containing the marker, or 0 if no line does. -/
def find_marker (o : Opts) (lines : List (List Char)) : Nat :=
  match lines.reverse.findIdx? (fun l => containsSub l o.marker) with
  | some j => lines.length - j
  | none => 0

/-- `LogProcessor::process_lines` (buffered mode): when trimming, start
after the last marker line and output nothing if there is none; then feed
the remaining lines and flush.  No pending output stage. -/
def process_lines (o : Opts) (lines : List (List Char)) : ProcState × Option PErr :=
  if o.trim ∧ find_marker o lines = 0 then (initState, none)
  else
    let start := if o.trim then find_marker o lines else 0
    match feedLines o initState (lines.drop start) with
    | (st, some e) => (st, some e)
    | (st, none) =>
      match flush o st with
      | .error e => (st, some e)
      | .ok st' => (st', none)

/-! ### Auxiliary definitions for the statements -/

/-- The per-block data `flush` reads: the raw buffer, the signature buffer
and the canonical signature lines of one assembled report block. -/
structure BlockData where
  raw : List Char
  sig : List Char
  sigLines : List (List Char)
deriving Repr, DecidableEq

/-- Install one assembled block into the processor state. -/
def loadBlock (st : ProcState) (b : BlockData) : ProcState :=
  { st with raw := b.raw, sig := b.sig, sigLines := b.sigLines }

/-- The signature key `flush` would compute for a block. -/
def keyOf (o : Opts) (b : BlockData) : List Char :=
  generate_signature_key o (loadBlock initState b)

/-- One epoch's sequence of `flush` calls: each block is assembled and
flushed, with `seen` and `pending` threaded through. -/
def flushBlocks (o : Opts) : ProcState → List BlockData → Except PErr ProcState
  | st, [] => .ok st
  | st, b :: bs =>
    match flush o (loadBlock st b) with
    | .error e => .error e
    | .ok st' => flushBlocks o st' bs

/-- First-seen-wins selection, stated from the spec's deduplication words:
keep a block exactly when its key is not in `seen` nor on an earlier kept
block. -/
def dedupFirstSpec (o : Opts) (seen : List (List Char)) : List BlockData → List BlockData
  | [] => []
  | b :: bs =>
    if keyOf o b ∈ seen then dedupFirstSpec o seen bs
    else b :: dedupFirstSpec o (keyOf o b :: seen) bs

/-- Run-at-a-time whitespace collapse, modelled from the amended wording of
the whitespace rule: each maximal whitespace run of length at least two
becomes one space, and a maximal run of length one is kept unchanged. -/
def wsSpecGo : Nat → List Char → List Char
  | 0, l => l
  | _ + 1, [] => []
  | f + 1, c :: cs =>
    if isWsB c then
      (if 2 ≤ ((c :: cs).takeWhile isWsB).length then [' '] else [c]) ++
        wsSpecGo f (cs.dropWhile isWsB)
    else c :: wsSpecGo f cs

/-- Top level of `wsSpecGo`. -/
def wsAmendedSpec (l : List Char) : List Char := wsSpecGo l.length l

/-- Options of the pending-bound counterexample: stream mode, no trimming,
no scrubbing, depth 1. -/
def c6opt : Opts := ⟨1, false, false, true, "M".data⟩

/-! ### The pending-growth run (C6 counterexample infrastructure) -/

/-- Distinct report bodies for the pending-growth run: `Invalid read `
followed by `i + 1` copies of `a`. -/
def c6body (i : Nat) : List Char := "Invalid read ".data ++ List.replicate (i + 1) 'a'

/-- The `i`-th input line of the pending-growth run. -/
def c6line (i : Nat) : List Char := "==10== ".data ++ c6body i

/-- The first `n` lines of the pending-growth run. -/
def c6input (n : Nat) : List (List Char) := (List.range n).map c6line

/-- The signature key the run's `i`-th block produces at depth 1. -/
def c6key (i : Nat) : List Char := c6body i ++ ['\n']

/-- The pending-queue entry of the run's `i`-th block. -/
def c6block (i : Nat) : List Char := c6body i ++ ['\n', '\n']

/-- Processor state right after the run's `n`-th line: block `n` assembled,
blocks `0 … n-1` flushed to the pending queue, their keys in `seen`. -/
def c6run (n : Nat) : ProcState :=
  ⟨c6body n ++ ['\n'], c6body n ++ ['\n'], [c6body n],
   ((List.range n).reverse).map c6key, (List.range n).map c6block, false, []⟩

/-- Processor state after flushing the run's first `n` blocks. -/
def c6flushed (n : Nat) : ProcState :=
  ⟨[], [], [], ((List.range n).reverse).map c6key,
   (List.range n).map c6block, false, []⟩

/-- Options of the streaming-confinement counterexample. -/
def c5opt : Opts := ⟨1, true, true, true, "M".data⟩

/-- A stream whose sole pre-marker line exceeds `MAX_LINE_LENGTH`. -/
def c5linesA : List (List Char) :=
  [List.replicate 1048577 'a', "M".data, "==10== Invalid read x".data]

/-- The same stream with a harmless pre-marker line. -/
def c5linesB : List (List Char) :=
  ["zz".data, "M".data, "==10== Invalid read x".data]

/-! ### Claim theorems -/

/-- C2 counterexample: canonicalization is not idempotent.  `canon "0x1"`
is `0xADDR`, but a second application re-matches the address rule on the
hex digits `ADD` and yields `0xADDRR`. -/
theorem c2_canon_not_idempotent :
    canon "0x1".data = "0xADDR".data ∧
    canon "0xADDR".data = "0xADDRR".data ∧
    canon (canon "0x1".data) ≠ canon "0x1".data := by
  refine ⟨by decide, by decide, ?_⟩
  decide

/-- C3: the vg-line scanner rejects a single-digit PID.  `==1== Invalid
read` is not classified as a vg-line (the check `i < 4` demands at least
two PID digits) and `process_line` discards it unchanged, while a
two-digit PID and the repository's own test vector `==0==` show the
declared pattern `^==[0-9]+==` is intended to accept one digit. -/
theorem c3_vg_line_single_digit_rejected :
    matches_vg_line "==1== Invalid read".data = false ∧
    matches_vg_line "==0==".data = false ∧
    matches_vg_line "==12== Invalid read".data = true ∧
    process_line ⟨1, true, true, false, "Successfully downloaded debug".data⟩
      initState "==1== Invalid read".data = .ok initState := by
  refine ⟨by decide, by decide, by decide, ?_⟩
  decide

/-- C7 counterexample: a lone interior tab survives canonicalization
unchanged; the whitespace rule replaces a run only when it has length at
least two, so `canon "a\t b"` is not `"a b"`. -/
theorem c7_single_tab_not_collapsed :
    canon ['a', '\t', 'b'] = ['a', '\t', 'b'] ∧
    canon ['a', '\t', 'b'] ≠ ['a', ' ', 'b'] := by
  exact ⟨by decide, by decide⟩

/-- C8: the bytes-header scanner rejects a line on which the pattern ends
at the last byte (`pos + 7 >= size` demands a byte after ` blocks`), so
`40 bytes in 1 blocks` is not matched although the same text with a
continuation is. -/
theorem c8_bytes_head_end_of_line_rejected :
    matches_bytes_head "40 bytes in 1 blocks".data = false ∧
    matches_bytes_head
      "40 bytes in 1 blocks are definitely lost in loss record 1 of 1".data = true := by
  exact ⟨by decide, by decide⟩

/-- The two whitespace scanners agree: testing whether the next character
continues the run is the same as testing whether the maximal run has
length at least two. -/
theorem wsGo_eq_wsSpecGo (f : Nat) : ∀ l, wsGo f l = wsSpecGo f l := by
  induction f with
  | zero => intro l; rfl
  | succ f ih =>
    intro l
    match l with
    | [] => rfl
    | c :: cs =>
      by_cases hc : isWsB c
      · cases cs with
        | nil => simp [wsGo, wsSpecGo, hc, List.takeWhile, ih]
        | cons d cs' =>
          by_cases hd : isWsB d
          · simp [wsGo, wsSpecGo, hc, hd, List.takeWhile_cons, ih]
          · simp [wsGo, wsSpecGo, hc, hd, List.takeWhile_cons, ih]
      · simp [wsGo, wsSpecGo, hc, ih]

/-- A nonempty prefix has the head of the whole list. -/
theorem head?_of_isPrefix {l₁ l₂ : List Char} (h : l₁ <+: l₂) {c : Char}
    (hc : l₁.head? = some c) : l₂.head? = some c := by
  obtain ⟨t, rfl⟩ := h
  cases l₁ with
  | nil => simp at hc
  | cons a r => simpa using hc

/-- C9: the signature key is the whole signature buffer when depth is 0 and
the first `min(depth, #sigLines)` canonical lines (newline-terminated)
when depth is positive; whenever depth is at least the number of signature
lines the key equals the whole signature buffer, the same key as depth 0.
The hypothesis is the assembler invariant that the signature buffer is the
newline-joined signature lines. -/
theorem c9_signature_key_depth (o : Opts) (st : ProcState)
    (hinv : st.sig = (st.sigLines.map (· ++ ['\n'])).flatten) :
    (o.depth = 0 → generate_signature_key o st = st.sig) ∧
    (0 < o.depth →
      generate_signature_key o st =
        ((st.sigLines.take o.depth).map (· ++ ['\n'])).flatten) ∧
    (st.sigLines.length ≤ o.depth → generate_signature_key o st = st.sig) := by
  refine ⟨fun h0 => ?_, fun hpos => ?_, fun hge => ?_⟩
  · simp [generate_signature_key, h0]
  · simp [generate_signature_key, hpos]
  · unfold generate_signature_key
    by_cases hpos : 0 < o.depth
    · rw [if_pos hpos, List.take_of_length_le hge, hinv]
    · rw [if_neg hpos]

/-- C9 witness: a concrete state satisfying the buffer invariant, at
depth 2 with three signature lines. -/
theorem c9_signature_key_depth_witness :
    (⟨"a\nb\nc\n".data, "a\nb\nc\n".data, ["a".data, "b".data, "c".data],
       [], [], false, []⟩ : ProcState).sig =
      ((["a".data, "b".data, "c".data].map (· ++ ['\n'])).flatten) ∧
    generate_signature_key ⟨2, true, true, false, []⟩
      ⟨"a\nb\nc\n".data, "a\nb\nc\n".data, ["a".data, "b".data, "c".data],
       [], [], false, []⟩ = "a\nb\n".data := by
  constructor
  · decide
  · have h := c9_signature_key_depth ⟨2, true, true, false, []⟩
      ⟨"a\nb\nc\n".data, "a\nb\nc\n".data, ["a".data, "b".data, "c".data],
       [], [], false, []⟩ (by decide)
    rw [h.2.1 (by decide)]
    decide

/-- The canonical form never starts with a whitespace byte. -/
theorem canon_head_not_ws (s : List Char) :
    ∀ c, (canon s).head? = some c → isWsB c = false := by
  intro c hc
  have h2 : ((replace_ws_pattern (replace_template_pattern (replace_array_pattern
      (replace_line_pattern (replace_addr_pattern s))))).dropWhile isWsB).head? =
      some c :=
    head?_of_isPrefix (List.rdropWhile_prefix _ _) hc
  have h3 := List.head?_dropWhile_not isWsB
    (replace_ws_pattern (replace_template_pattern (replace_array_pattern
      (replace_line_pattern (replace_addr_pattern s)))))
  rw [h2] at h3
  exact h3

/-- The canonical form never ends with a whitespace byte. -/
theorem canon_getLast_not_ws (s : List Char) :
    ∀ c, (canon s).getLast? = some c → isWsB c = false := by
  intro c hc
  have hne : (canon s) ≠ [] := by
    intro h
    rw [h] at hc
    simp at hc
  have hlast := List.rdropWhile_last_not isWsB
    ((replace_ws_pattern (replace_template_pattern (replace_array_pattern
      (replace_line_pattern (replace_addr_pattern s))))).dropWhile isWsB)
    (by exact hne)
  have hsome : (canon s).getLast? = some ((canon s).getLast hne) :=
    List.getLast?_eq_getLast _ hne
  rw [hc] at hsome
  have : c = (canon s).getLast hne := by
    exact Option.some.inj hsome
  rw [this]
  simpa using hlast

/-- C7 amended: the whitespace stage collapses each maximal run of two or
more whitespace bytes to a single space and keeps a maximal run of length
one unchanged, and canonicalization removes leading and trailing
whitespace: the canonical form never starts or ends with a whitespace
byte. -/
theorem c7_ws_collapse_amended :
    (∀ l, replace_ws_pattern l = wsAmendedSpec l) ∧
    (∀ s c, ((canon s).head? = some c → isWsB c = false) ∧
      ((canon s).getLast? = some c → isWsB c = false)) := by
  constructor
  · intro l
    exact wsGo_eq_wsSpecGo l.length l
  · intro s c
    exact ⟨canon_head_not_ws s c, canon_getLast_not_ws s c⟩

/-! ### Case analyses of `flush` and `process_line` -/

/-- Complete case analysis of `flush`, following the branch structure of
the source: empty raw buffer, oversized block, duplicate key, and the
fresh-key outcomes in stream and buffered mode. -/
theorem flush_spec (o : Opts) (st : ProcState) :
    (st.raw = [] ∧ flush o st = .ok (clear_current_state st)) ∨
    (st.raw ≠ [] ∧ maxBlockSize < st.raw.length ∧
      flush o st = .error .blockTooBig) ∨
    (st.raw ≠ [] ∧ st.raw.length ≤ maxBlockSize ∧
      generate_signature_key o st ∈ st.seen ∧
      flush o st = .ok (clear_current_state st)) ∨
    (st.raw ≠ [] ∧ st.raw.length ≤ maxBlockSize ∧
      generate_signature_key o st ∉ st.seen ∧ o.stream_mode = true ∧
      maxPendingBlocks < st.pending.length ∧
      flush o st = .error .tooManyPending) ∨
    (st.raw ≠ [] ∧ st.raw.length ≤ maxBlockSize ∧
      generate_signature_key o st ∉ st.seen ∧ o.stream_mode = true ∧
      st.pending.length ≤ maxPendingBlocks ∧
      flush o st = .ok { clear_current_state st with
                         seen := generate_signature_key o st :: st.seen,
                         pending := st.pending ++ [st.raw ++ ['\n']] }) ∨
    (st.raw ≠ [] ∧ st.raw.length ≤ maxBlockSize ∧
      generate_signature_key o st ∉ st.seen ∧ o.stream_mode = false ∧
      flush o st = .ok { clear_current_state st with
                         seen := generate_signature_key o st :: st.seen,
                         out := st.out ++ st.raw ++ ['\n'] }) := by
  by_cases h1 : st.raw = []
  · exact Or.inl ⟨h1, by simp [flush, h1]⟩
  by_cases h2 : maxBlockSize < st.raw.length
  · exact Or.inr (Or.inl ⟨h1, h2, by simp [flush, h1, h2]⟩)
  have h2' : st.raw.length ≤ maxBlockSize := Nat.le_of_not_lt h2
  by_cases h3 : generate_signature_key o st ∈ st.seen
  · exact Or.inr (Or.inr (Or.inl ⟨h1, h2', h3, by simp [flush, h1, h2, h3]⟩))
  by_cases h4 : o.stream_mode = true
  · by_cases h5 : maxPendingBlocks < st.pending.length
    · exact Or.inr (Or.inr (Or.inr (Or.inl
        ⟨h1, h2', h3, h4, h5, by simp [flush, h1, h2, h3, h4, h5]⟩)))
    · exact Or.inr (Or.inr (Or.inr (Or.inr (Or.inl
        ⟨h1, h2', h3, h4, Nat.le_of_not_lt h5,
          by simp [flush, h1, h2, h3, h4, h5]⟩))))
  · have h4' : o.stream_mode = false := by simpa using h4
    exact Or.inr (Or.inr (Or.inr (Or.inr (Or.inr
      ⟨h1, h2', h3, h4', by simp [flush, h1, h2, h3, h4']⟩))))

/-- In stream mode a successful `flush` writes nothing to the sink. -/
theorem flush_ok_out_stream {o : Opts} {st st' : ProcState}
    (hs : o.stream_mode = true) (h : flush o st = .ok st') : st'.out = st.out := by
  rcases flush_spec o st with ⟨_, he⟩ | ⟨_, _, he⟩ | ⟨_, _, _, he⟩ |
    ⟨_, _, _, _, _, he⟩ | ⟨_, _, _, _, _, he⟩ | ⟨_, _, _, hns, he⟩
  · rw [he] at h; injection h with h; subst h; rfl
  · rw [he] at h; cases h
  · rw [he] at h; injection h with h; subst h; rfl
  · rw [he] at h; cases h
  · rw [he] at h; injection h with h; subst h; rfl
  · rw [hs] at hns; cases hns

/-- A successful `flush` never changes `marker_found`, `pending` in
buffered mode, or `out` in stream mode; here the `marker_found` part. -/
theorem flush_ok_marker {o : Opts} {st st' : ProcState}
    (h : flush o st = .ok st') : st'.marker_found = st.marker_found := by
  rcases flush_spec o st with ⟨_, he⟩ | ⟨_, _, he⟩ | ⟨_, _, _, he⟩ |
    ⟨_, _, _, _, _, he⟩ | ⟨_, _, _, _, _, he⟩ | ⟨_, _, _, _, he⟩ <;>
    rw [he] at h
  · injection h with h; subst h; rfl
  · cases h
  · injection h with h; subst h; rfl
  · cases h
  · injection h with h; subst h; rfl
  · injection h with h; subst h; rfl

/-- Complete case analysis of `process_line`, following the source: the
marker reset, the non-vg-line discard, and the report-start and
accumulation paths. -/
theorem process_line_spec (o : Opts) (st : ProcState) (l : List Char) :
    ((o.trim = true ∧ o.stream_mode = true ∧ containsSub l o.marker = true) ∧
      process_line o st l = .ok { reset_epoch st with marker_found := true }) ∨
    (¬(o.trim = true ∧ o.stream_mode = true ∧ containsSub l o.marker = true) ∧
      matches_vg_line l = false ∧ process_line o st l = .ok st) ∨
    (¬(o.trim = true ∧ o.stream_mode = true ∧ containsSub l o.marker = true) ∧
      matches_vg_line l = true ∧
      matches_start_pattern (replace_pfx l) = true ∧
      ((∃ e, flush o st = .error e ∧ process_line o st l = .error e) ∨
       (∃ st1, flush o st = .ok st1 ∧
         ((matches_bytes_head (replace_pfx l) = true ∧
            process_line o st l = .ok st1) ∨
          (matches_bytes_head (replace_pfx l) = false ∧
            trim_view (process_raw_line o (replace_pfx l)) = [] ∧
            process_line o st l = .ok st1) ∨
          (matches_bytes_head (replace_pfx l) = false ∧
            trim_view (process_raw_line o (replace_pfx l)) ≠ [] ∧
            process_line o st l = .ok (addLineState o (replace_pfx l) st1)))))) ∨
    (¬(o.trim = true ∧ o.stream_mode = true ∧ containsSub l o.marker = true) ∧
      matches_vg_line l = true ∧
      matches_start_pattern (replace_pfx l) = false ∧
      ((trim_view (process_raw_line o (replace_pfx l)) = [] ∧
         process_line o st l = .ok st) ∨
       (trim_view (process_raw_line o (replace_pfx l)) ≠ [] ∧
         process_line o st l = .ok (addLineState o (replace_pfx l) st)))) := by
  by_cases hm : o.trim = true ∧ o.stream_mode = true ∧ containsSub l o.marker = true
  · refine Or.inl ⟨hm, ?_⟩
    have hm' : o.trim ∧ o.stream_mode ∧ containsSub l o.marker := by
      exact ⟨hm.1, hm.2.1, hm.2.2⟩
    simp [process_line, hm']
  · have hm' : ¬(o.trim ∧ o.stream_mode ∧ containsSub l o.marker) := by
      intro hcon
      exact hm ⟨hcon.1, hcon.2.1, hcon.2.2⟩
    by_cases hv : matches_vg_line l = true
    · by_cases hstart : matches_start_pattern (replace_pfx l) = true
      · refine Or.inr (Or.inr (Or.inl ⟨hm, hv, hstart, ?_⟩))
        cases hflush : flush o st with
        | error e =>
          exact Or.inl ⟨e, rfl, by simp [process_line, hm', hv, hstart, hflush]⟩
        | ok st1 =>
          refine Or.inr ⟨st1, rfl, ?_⟩
          by_cases hb : matches_bytes_head (replace_pfx l) = true
          · exact Or.inl ⟨hb, by simp [process_line, hm', hv, hstart, hflush, hb]⟩
          · have hb' : matches_bytes_head (replace_pfx l) = false := by
              simpa using hb
            by_cases htv : trim_view (process_raw_line o (replace_pfx l)) = []
            · exact Or.inr (Or.inl ⟨hb', htv,
                by simp [process_line, hm', hv, hstart, hflush, hb', htv]⟩)
            · exact Or.inr (Or.inr ⟨hb', htv,
                by simp [process_line, hm', hv, hstart, hflush, hb', htv]⟩)
      · have hstart' : matches_start_pattern (replace_pfx l) = false := by
          simpa using hstart
        refine Or.inr (Or.inr (Or.inr ⟨hm, hv, hstart', ?_⟩))
        by_cases htv : trim_view (process_raw_line o (replace_pfx l)) = []
        · exact Or.inl ⟨htv, by simp [process_line, hm', hv, hstart', htv]⟩
        · exact Or.inr ⟨htv, by simp [process_line, hm', hv, hstart', htv]⟩
    · have hv' : matches_vg_line l = false := by simpa using hv
      exact Or.inr (Or.inl ⟨hm, hv', by simp [process_line, hm', hv']⟩)

/-- In stream mode a successful `process_line` writes nothing to the sink. -/
theorem process_line_ok_out_stream {o : Opts} {st st' : ProcState} {l : List Char}
    (hs : o.stream_mode = true) (h : process_line o st l = .ok st') :
    st'.out = st.out := by
  rcases process_line_spec o st l with ⟨_, he⟩ | ⟨_, _, he⟩ |
    ⟨_, _, _, hrest⟩ | ⟨_, _, _, hrest⟩
  · rw [he] at h; injection h with h; subst h; rfl
  · rw [he] at h; injection h with h; subst h; rfl
  · rcases hrest with ⟨e, _, he⟩ | ⟨st1, hflush, hrest⟩
    · rw [he] at h; cases h
    · have h1 : st1.out = st.out := flush_ok_out_stream hs hflush
      rcases hrest with ⟨_, he⟩ | ⟨_, _, he⟩ | ⟨_, _, he⟩ <;> rw [he] at h <;>
        injection h with h <;> subst h
      · exact h1
      · exact h1
      · exact h1
  · rcases hrest with ⟨_, he⟩ | ⟨_, he⟩ <;> rw [he] at h <;>
      injection h with h <;> subst h
    · rfl
    · rfl

/-- A `process_line` on a line not containing the marker leaves
`marker_found` unchanged. -/
theorem process_line_ok_marker {o : Opts} {st st' : ProcState} {l : List Char}
    (hm : containsSub l o.marker = false) (h : process_line o st l = .ok st') :
    st'.marker_found = st.marker_found := by
  rcases process_line_spec o st l with ⟨⟨_, _, hcon⟩, _⟩ | ⟨_, _, he⟩ |
    ⟨_, _, _, hrest⟩ | ⟨_, _, _, hrest⟩
  · rw [hm] at hcon; cases hcon
  · rw [he] at h; injection h with h; subst h; rfl
  · rcases hrest with ⟨e, _, he⟩ | ⟨st1, hflush, hrest⟩
    · rw [he] at h; cases h
    · have h1 : st1.marker_found = st.marker_found := flush_ok_marker hflush
      rcases hrest with ⟨_, he⟩ | ⟨_, _, he⟩ | ⟨_, _, he⟩ <;> rw [he] at h <;>
        injection h with h <;> subst h
      · exact h1
      · exact h1
      · exact h1
  · rcases hrest with ⟨_, he⟩ | ⟨_, he⟩ <;> rw [he] at h <;>
      injection h with h <;> subst h
    · rfl
    · rfl

/-- In stream mode the whole read loop writes nothing to the sink, whether
or not it ends in a fatal error. -/
theorem feedLines_out_stream {o : Opts} (hs : o.stream_mode = true) :
    ∀ (lines : List (List Char)) (st : ProcState),
      ((feedLines o st lines).1).out = st.out := by
  intro lines
  induction lines with
  | nil => intro st; rfl
  | cons l ls ih =>
    intro st
    simp only [feedLines]
    split
    · rfl
    · cases hpl : process_line o st l with
      | error e => rfl
      | ok st' => rw [ih st', process_line_ok_out_stream hs hpl]

/-- If no fed line contains the marker, `marker_found` is unchanged by the
read loop. -/
theorem feedLines_marker {o : Opts} :
    ∀ (lines : List (List Char)) (st : ProcState),
      (∀ l ∈ lines, containsSub l o.marker = false) →
      ((feedLines o st lines).1).marker_found = st.marker_found := by
  intro lines
  induction lines with
  | nil => intro st _; rfl
  | cons l ls ih =>
    intro st hnm
    simp only [feedLines]
    split
    · rfl
    · cases hpl : process_line o st l with
      | error e => rfl
      | ok st' =>
        rw [ih st' (fun x hx => hnm x (List.mem_cons_of_mem _ hx)),
          process_line_ok_marker (hnm l (List.mem_cons_self _ _)) hpl]

/-- The read loop splits over list concatenation. -/
theorem feedLines_append (o : Opts) :
    ∀ (xs ys : List (List Char)) (st : ProcState),
      feedLines o st (xs ++ ys) =
        match feedLines o st xs with
        | (st', none) => feedLines o st' ys
        | (st', some e) => (st', some e) := by
  intro xs
  induction xs with
  | nil => intro ys st; rfl
  | cons x xs ih =>
    intro ys st
    simp only [List.cons_append, feedLines]
    split
    · rfl
    · cases hpl : process_line o st x with
      | error e => rfl
      | ok st' => exact ih ys st'

/-- C4: if trimming is on and no input line contains the marker, the output
is empty: buffered processing returns before feeding any line, and a
streaming run never writes its pending queue because `marker_found` stays
false. -/
theorem c4_trim_empty (o : Opts) (lines : List (List Char))
    (ht : o.trim = true)
    (hnm : ∀ l ∈ lines, containsSub l o.marker = false) :
    ((process_lines o lines).1.out = [] ∧ process_lines o lines = (initState, none)) ∧
    (o.stream_mode = true → (process_stream o lines).1.out = []) := by
  have hfm : find_marker o lines = 0 := by
    unfold find_marker
    have : lines.reverse.findIdx? (fun l => containsSub l o.marker) = none := by
      rw [List.findIdx?_eq_none_iff]
      intro x hx
      simp [hnm x (List.mem_reverse.mp hx)]
    rw [this]
  constructor
  · have hpl : process_lines o lines = (initState, none) := by
      unfold process_lines
      rw [if_pos ⟨ht, hfm⟩]
    exact ⟨by rw [hpl]; rfl, hpl⟩
  · intro hs
    unfold process_stream runFrom
    cases hfeed : feedLines o initState lines with
    | mk st oe =>
      have hout : st.out = [] := by
        have := feedLines_out_stream hs lines initState
        rw [hfeed] at this
        exact this
      have hmf : st.marker_found = false := by
        have := feedLines_marker lines initState hnm
        rw [hfeed] at this
        exact this
      cases oe with
      | some e => simpa using hout
      | none =>
        cases hflush : flush o st with
        | error e => simp only [hflush]; simpa using hout
        | ok st' =>
          have hout' : st'.out = [] := by
            rw [flush_ok_out_stream hs hflush, hout]
          have hmf' : st'.marker_found = false := by
            rw [flush_ok_marker hflush, hmf]
          simp only [hflush]
          simp [output_pending_blocks, ht, hmf', hout']

/-- C4 witness: default options in stream mode on a one-line input that
does not contain the marker. -/
theorem c4_trim_empty_witness :
    ((process_lines ⟨1, true, true, true, "Successfully downloaded debug".data⟩
        ["==10== Invalid read x".data]).1.out = [] ∧
      process_lines ⟨1, true, true, true, "Successfully downloaded debug".data⟩
        ["==10== Invalid read x".data] = (initState, none)) ∧
    ((⟨1, true, true, true, "Successfully downloaded debug".data⟩ : Opts).stream_mode = true →
      (process_stream ⟨1, true, true, true, "Successfully downloaded debug".data⟩
        ["==10== Invalid read x".data]).1.out = []) :=
  c4_trim_empty ⟨1, true, true, true, "Successfully downloaded debug".data⟩
    ["==10== Invalid read x".data] (by decide) (by decide)

/-- C10: in stream mode `flush` never writes to the sink, whatever the trim
setting: a successful `flush` and a successful `process_line` leave `out`
unchanged, the whole read loop writes nothing, the pending-count limit
fires on a fresh-key flush whenever the queue exceeds it, and an accepted
block is appended to the pending queue. -/
theorem c10_stream_flush_enqueues_only :
    (∀ (o : Opts) (st st' : ProcState), o.stream_mode = true →
      flush o st = .ok st' → st'.out = st.out) ∧
    (∀ (o : Opts) (st st' : ProcState) (l : List Char), o.stream_mode = true →
      process_line o st l = .ok st' → st'.out = st.out) ∧
    (∀ (o : Opts) (lines : List (List Char)), o.stream_mode = true →
      ((feedLines o initState lines).1).out = []) ∧
    (∀ (o : Opts) (st : ProcState), o.stream_mode = true → st.raw ≠ [] →
      st.raw.length ≤ maxBlockSize → generate_signature_key o st ∉ st.seen →
      maxPendingBlocks < st.pending.length →
      flush o st = .error .tooManyPending) ∧
    (∀ (o : Opts) (st : ProcState), o.stream_mode = true → st.raw ≠ [] →
      st.raw.length ≤ maxBlockSize → generate_signature_key o st ∉ st.seen →
      st.pending.length ≤ maxPendingBlocks →
      flush o st = .ok { clear_current_state st with
                         seen := generate_signature_key o st :: st.seen,
                         pending := st.pending ++ [st.raw ++ ['\n']] }) := by
  refine ⟨fun o st st' hs h => flush_ok_out_stream hs h,
    fun o st st' l hs h => process_line_ok_out_stream hs h,
    fun o lines hs => feedLines_out_stream hs lines initState,
    fun o st hs hraw hsize hfresh hover => ?_,
    fun o st hs hraw hsize hfresh hroom => ?_⟩
  · have hnl : ¬maxBlockSize < st.raw.length := Nat.not_lt.mpr hsize
    simp [flush, hraw, hnl, hfresh, hs, hover]
  · have hnl : ¬maxBlockSize < st.raw.length := Nat.not_lt.mpr hsize
    have hnp : ¬maxPendingBlocks < st.pending.length := Nat.not_lt.mpr hroom
    simp [flush, hraw, hnl, hfresh, hs, hnp]

set_option maxRecDepth 40000 in
/-- C10 witness: the five parts instantiated at concrete stream-mode
states: a flush of an empty buffer, a processed non-vg line, a one-line
read loop, a fresh-key flush over a 1001-entry queue, and a fresh-key
flush onto an empty queue. -/
theorem c10_stream_flush_enqueues_only_witness :
    (clear_current_state initState).out = initState.out ∧
    initState.out = initState.out ∧
    ((feedLines ⟨1, true, true, true, "M".data⟩ initState ["zz".data]).1).out = [] ∧
    flush ⟨1, true, true, true, "M".data⟩
      ⟨['x'], ['x'], [], [], List.replicate 1001 [], false, []⟩ =
        .error .tooManyPending ∧
    flush ⟨1, true, true, true, "M".data⟩ ⟨['x'], ['x'], [], [], [], false, []⟩ =
      .ok { clear_current_state (⟨['x'], ['x'], [], [], [], false, []⟩ : ProcState) with
            seen := [generate_signature_key ⟨1, true, true, true, "M".data⟩
              ⟨['x'], ['x'], [], [], [], false, []⟩],
            pending := [['x', '\n']] } := by
  refine ⟨c10_stream_flush_enqueues_only.1 ⟨1, true, true, true, "M".data⟩
      initState (clear_current_state initState) rfl (by decide),
    c10_stream_flush_enqueues_only.2.1 ⟨1, true, true, true, "M".data⟩
      initState initState "zz".data rfl (by decide),
    c10_stream_flush_enqueues_only.2.2.1 ⟨1, true, true, true, "M".data⟩
      ["zz".data] rfl,
    c10_stream_flush_enqueues_only.2.2.2.1 ⟨1, true, true, true, "M".data⟩
      ⟨['x'], ['x'], [], [], List.replicate 1001 [], false, []⟩ rfl (by decide)
      (by decide) (by decide) (by decide),
    ?_⟩
  have h := c10_stream_flush_enqueues_only.2.2.2.2 ⟨1, true, true, true, "M".data⟩
    ⟨['x'], ['x'], [], [], [], false, []⟩ rfl (by decide) (by decide) (by decide)
    (by decide)
  simpa using h

/-- A read loop over a concatenation whose first part ends without error
continues from the first part's final state. -/
theorem feedLines_append_none (o : Opts) {xs : List (List Char)}
    {st st1 : ProcState} (ys : List (List Char))
    (h : feedLines o st xs = (st1, none)) :
    feedLines o st (xs ++ ys) = feedLines o st1 ys := by
  rw [feedLines_append o xs ys st, h]

/-- In streaming trim mode, once the error-free prefix reaches the marker
line the machine is in the reset state with `marker_found` set, whatever
the prefix was. -/
theorem stream_reset_after_marker (o : Opts) (pre : List (List Char))
    (m : List Char) (suf : List (List Char))
    (ht : o.trim = true) (hs : o.stream_mode = true)
    (hm : containsSub m o.marker = true)
    (hpre : (feedLines o initState pre).2 = none) :
    (maxLineLength < m.length ∧
      runFrom o initState (pre ++ m :: suf) =
        ((feedLines o initState pre).1, some .lineTooLong)) ∨
    (m.length ≤ maxLineLength ∧
      runFrom o initState (pre ++ m :: suf) =
        runFrom o { initState with marker_found := true } suf) := by
  cases hfeed : feedLines o initState pre with
  | mk st1 oe =>
    have hoe : oe = none := by
      have := hpre
      rw [hfeed] at this
      exact this
    subst hoe
    have hout1 : st1.out = [] := by
      have := feedLines_out_stream hs pre initState
      rw [hfeed] at this
      exact this
    by_cases hlen : maxLineLength < m.length
    · left
      refine ⟨hlen, ?_⟩
      have hfeed2 : feedLines o st1 (m :: suf) = (st1, some .lineTooLong) := by
        simp only [feedLines]
        rw [if_pos hlen]
      have htot : feedLines o initState (pre ++ m :: suf) =
          (st1, some .lineTooLong) := by
        rw [feedLines_append_none o (m :: suf) hfeed, hfeed2]
      unfold runFrom
      rw [htot]
    · right
      refine ⟨Nat.le_of_not_lt hlen, ?_⟩
      have hpl : process_line o st1 m =
          .ok { reset_epoch st1 with marker_found := true } := by
        have hcond : o.trim ∧ o.stream_mode ∧ containsSub m o.marker := by
          rw [ht, hs, hm]
          exact ⟨rfl, rfl, rfl⟩
        simp [process_line, hcond]
      have hst : ({ reset_epoch st1 with marker_found := true } : ProcState) =
          { initState with marker_found := true } := by
        obtain ⟨r, s, sl, sn, p, mf, out⟩ := st1
        simp only [ProcState.mk.injEq] at hout1 ⊢
        simp [reset_epoch, initState, hout1]
      have hfeed2 : feedLines o st1 (m :: suf) =
          feedLines o { initState with marker_found := true } suf := by
        simp only [feedLines]
        rw [if_neg hlen]
        simp only [hpl]
        rw [hst]
      have htot : feedLines o initState (pre ++ m :: suf) =
          feedLines o { initState with marker_found := true } suf := by
        rw [feedLines_append_none o (m :: suf) hfeed, hfeed2]
      unfold runFrom
      rw [htot]

/-- C5 amended: in streaming trim mode, two inputs that agree from their
common marker line onwards and whose differing earlier lines each process
without a fatal error produce the same output and the same error status;
in particular no byte from before the last marker occurrence reaches the
sink.  (Without the error-free proviso the runs can differ: an over-long
line before the marker aborts one run, see the counterexample.) -/
theorem c5_epoch_confinement_amended (o : Opts) (pre1 pre2 : List (List Char))
    (m : List Char) (suf : List (List Char))
    (ht : o.trim = true) (hs : o.stream_mode = true)
    (hm : containsSub m o.marker = true)
    (h1 : (feedLines o initState pre1).2 = none)
    (h2 : (feedLines o initState pre2).2 = none) :
    (process_stream o (pre1 ++ m :: suf)).1.out =
      (process_stream o (pre2 ++ m :: suf)).1.out ∧
    (process_stream o (pre1 ++ m :: suf)).2 =
      (process_stream o (pre2 ++ m :: suf)).2 := by
  have r1 := stream_reset_after_marker o pre1 m suf ht hs hm h1
  have r2 := stream_reset_after_marker o pre2 m suf ht hs hm h2
  unfold process_stream
  rcases r1 with ⟨hl1, he1⟩ | ⟨hl1, he1⟩ <;> rcases r2 with ⟨hl2, he2⟩ | ⟨hl2, he2⟩
  · rw [he1, he2]
    constructor
    · have o1 := feedLines_out_stream hs pre1 initState
      have o2 := feedLines_out_stream hs pre2 initState
      simpa [o1] using o2.symm
    · rfl
  · exact absurd hl1 (Nat.not_lt.mpr hl2)
  · exact absurd hl2 (Nat.not_lt.mpr hl1)
  · rw [he1, he2]
    exact ⟨rfl, rfl⟩

/-- C5 witness: an empty prefix against a one-junk-line prefix, marker
`M`, and a single report line after the marker. -/
theorem c5_epoch_confinement_amended_witness :
    (process_stream ⟨1, true, true, true, "M".data⟩
        ([] ++ "M".data :: ["==10== Invalid read x".data])).1.out =
      (process_stream ⟨1, true, true, true, "M".data⟩
        (["zz".data] ++ "M".data :: ["==10== Invalid read x".data])).1.out ∧
    (process_stream ⟨1, true, true, true, "M".data⟩
        ([] ++ "M".data :: ["==10== Invalid read x".data])).2 =
      (process_stream ⟨1, true, true, true, "M".data⟩
        (["zz".data] ++ "M".data :: ["==10== Invalid read x".data])).2 :=
  c5_epoch_confinement_amended ⟨1, true, true, true, "M".data⟩ [] ["zz".data]
    "M".data ["==10== Invalid read x".data] rfl rfl (by decide) (by decide)
    (by decide)

/-- An over-long line stops the read loop with a fatal error, leaving the
state of the preceding lines. -/
theorem feedLines_cons_tooLong (o : Opts) (l : List Char)
    (hl : maxLineLength < l.length) (rest : List (List Char)) (st : ProcState) :
    feedLines o st (l :: rest) = (st, some .lineTooLong) := by
  simp only [feedLines]
  rw [if_pos hl]

/-- A run whose read loop ends in a fatal error reports that error without
flushing or writing pending blocks. -/
theorem runFrom_of_feed_some (o : Opts) (st st1 : ProcState) (e : PErr)
    (lines : List (List Char)) (h : feedLines o st lines = (st1, some e)) :
    runFrom o st lines = (st1, some e) := by
  unfold runFrom
  rw [h]

/-- C5 counterexample: two streaming inputs that differ only in lines
strictly before the last marker line but whose outputs differ, because the
first input's pre-marker line exceeds `MAX_LINE_LENGTH` and aborts the run
before the marker is reached. -/
theorem c5_pre_marker_line_changes_output :
    (process_stream c5opt c5linesA).1.out ≠ (process_stream c5opt c5linesB).1.out := by
  have hlen : maxLineLength < (List.replicate 1048577 'a').length := by
    rw [List.length_replicate]
    norm_num [maxLineLength]
  have hA : process_stream c5opt c5linesA = (initState, some .lineTooLong) :=
    runFrom_of_feed_some c5opt initState initState .lineTooLong c5linesA
      (feedLines_cons_tooLong c5opt (List.replicate 1048577 'a') hlen
        ["M".data, "==10== Invalid read x".data] initState)
  have hB : (process_stream c5opt c5linesB).1.out = "Invalid read x\n\n".data := by
    decide
  rw [hA, hB]
  decide

/-- A flush whose key is already in `Seen` only clears the block. -/
theorem flush_dup (o : Opts) (st : ProcState) (h1 : st.raw ≠ [])
    (h2 : st.raw.length ≤ maxBlockSize)
    (h3 : generate_signature_key o st ∈ st.seen) :
    flush o st = .ok (clear_current_state st) := by
  simp [flush, h1, Nat.not_lt.mpr h2, h3]

/-- A stream-mode flush with a fresh key and room in the queue inserts the
key and appends the block to `Pending`. -/
theorem flush_fresh_stream (o : Opts) (st : ProcState) (h1 : st.raw ≠ [])
    (h2 : st.raw.length ≤ maxBlockSize)
    (h3 : generate_signature_key o st ∉ st.seen) (h4 : o.stream_mode = true)
    (h5 : st.pending.length ≤ maxPendingBlocks) :
    flush o st = .ok { clear_current_state st with
                       seen := generate_signature_key o st :: st.seen,
                       pending := st.pending ++ [st.raw ++ ['\n']] } := by
  simp [flush, h1, Nat.not_lt.mpr h2, h3, h4, Nat.not_lt.mpr h5]

/-- A buffered flush with a fresh key inserts the key and writes the block
to the sink. -/
theorem flush_fresh_buffered (o : Opts) (st : ProcState) (h1 : st.raw ≠ [])
    (h2 : st.raw.length ≤ maxBlockSize)
    (h3 : generate_signature_key o st ∉ st.seen) (h4 : o.stream_mode = false) :
    flush o st = .ok { clear_current_state st with
                       seen := generate_signature_key o st :: st.seen,
                       out := st.out ++ st.raw ++ ['\n'] } := by
  simp [flush, h1, Nat.not_lt.mpr h2, h3, h4]

/-- The key `flush` computes for a loaded block does not depend on the
surrounding state. -/
theorem generate_key_loadBlock (o : Opts) (st : ProcState) (b : BlockData) :
    generate_signature_key o (loadBlock st b) = keyOf o b := rfl

/-- Flushing a sequence of assembled blocks in stream mode appends exactly
the first-seen representatives to the pending queue, extends `seen` with
their keys, and writes nothing. -/
theorem flushBlocks_ok (o : Opts) (hs : o.stream_mode = true) :
    ∀ (bs : List BlockData) (st : ProcState),
      (∀ b ∈ bs, b.raw ≠ [] ∧ b.raw.length ≤ maxBlockSize) →
      st.pending.length + bs.length ≤ maxPendingBlocks + 1 →
      ∃ stf, flushBlocks o st bs = .ok stf ∧
        stf.pending = st.pending ++
          (dedupFirstSpec o st.seen bs).map (fun b => b.raw ++ ['\n']) ∧
        stf.seen = ((dedupFirstSpec o st.seen bs).map (keyOf o)).reverse ++ st.seen ∧
        stf.out = st.out := by
  intro bs
  induction bs with
  | nil =>
    intro st _ _
    exact ⟨st, rfl, by simp [dedupFirstSpec], by simp [dedupFirstSpec], rfl⟩
  | cons b bs ih =>
    intro st hb hroom
    have hbr := hb b (List.mem_cons_self _ _)
    have hload_raw : (loadBlock st b).raw = b.raw := rfl
    by_cases hk : keyOf o b ∈ st.seen
    · have hflush : flush o (loadBlock st b) =
          .ok (clear_current_state (loadBlock st b)) := by
        apply flush_dup
        · rw [hload_raw]; exact hbr.1
        · rw [hload_raw]; exact hbr.2
        · rw [generate_key_loadBlock]; exact hk
      obtain ⟨stf, he, hp, hsn, ho⟩ := ih (clear_current_state (loadBlock st b))
        (fun x hx => hb x (List.mem_cons_of_mem _ hx))
        (by
          have h := hroom
          simp only [List.length_cons] at h
          show st.pending.length + bs.length ≤ maxPendingBlocks + 1
          omega)
      refine ⟨stf, ?_, ?_, ?_, ?_⟩
      · simp only [flushBlocks, hflush]
        exact he
      · rw [hp]
        simp [dedupFirstSpec, hk, clear_current_state, loadBlock]
      · rw [hsn]
        simp [dedupFirstSpec, hk, clear_current_state, loadBlock]
      · rw [ho]
        rfl
    · have hroom1 : st.pending.length ≤ maxPendingBlocks := by
        simp only [List.length_cons] at hroom
        omega
      have hflush : flush o (loadBlock st b) =
          .ok { clear_current_state (loadBlock st b) with
                seen := generate_signature_key o (loadBlock st b) ::
                  (loadBlock st b).seen,
                pending := (loadBlock st b).pending ++
                  [(loadBlock st b).raw ++ ['\n']] } := by
        apply flush_fresh_stream
        · rw [hload_raw]; exact hbr.1
        · rw [hload_raw]; exact hbr.2
        · rw [generate_key_loadBlock]; exact hk
        · exact hs
        · exact hroom1
      set st2 : ProcState :=
        { clear_current_state (loadBlock st b) with
          seen := generate_signature_key o (loadBlock st b) :: (loadBlock st b).seen,
          pending := (loadBlock st b).pending ++ [(loadBlock st b).raw ++ ['\n']] }
      have hst2p : st2.pending = st.pending ++ [b.raw ++ ['\n']] := rfl
      have hst2s : st2.seen = keyOf o b :: st.seen := rfl
      have hst2o : st2.out = st.out := rfl
      obtain ⟨stf, he, hp, hsn, ho⟩ := ih st2
        (fun x hx => hb x (List.mem_cons_of_mem _ hx))
        (by
          rw [hst2p]
          simp only [List.length_append, List.length_cons, List.length_nil] at hroom ⊢
          omega)
      refine ⟨stf, ?_, ?_, ?_, ?_⟩
      · simp only [flushBlocks, hflush]
        exact he
      · rw [hp, hst2p, hst2s]
        simp [dedupFirstSpec, hk]
      · rw [hsn, hst2s]
        simp [dedupFirstSpec, hk, List.reverse_cons, List.append_assoc]
      · rw [ho, hst2o]

/-- First-seen-wins, per key: among the blocks the spec-side selection
keeps, those with key `k` are exactly the first input block with key `k`
(none if `k` was already seen). -/
theorem dedupFirstSpec_filter (o : Opts) :
    ∀ (bs : List BlockData) (seen : List (List Char)) (k : List Char),
      (dedupFirstSpec o seen bs).filter (fun b => keyOf o b == k) =
        if k ∈ seen then [] else (bs.filter (fun b => keyOf o b == k)).take 1 := by
  intro bs
  induction bs with
  | nil =>
    intro seen k
    by_cases hk : k ∈ seen <;> simp [dedupFirstSpec, hk]
  | cons b bs ih =>
    intro seen k
    by_cases hkb : keyOf o b ∈ seen
    · rw [dedupFirstSpec, if_pos hkb, ih]
      by_cases hks : k ∈ seen
      · rw [if_pos hks, if_pos hks]
      · have hne : ¬(keyOf o b == k) = true := by
          intro hc
          exact hks (beq_iff_eq.mp hc ▸ hkb)
        rw [if_neg hks, if_neg hks, List.filter_cons, if_neg hne]
    · rw [dedupFirstSpec, if_neg hkb]
      by_cases hbk : keyOf o b = k
      · subst hbk
        have hks : keyOf o b ∉ seen := hkb
        rw [List.filter_cons, List.filter_cons]
        simp only [beq_self_eq_true, if_pos]
        rw [if_neg hks, ih]
        simp [List.mem_cons]
      · have hne : ¬(keyOf o b == k) = true := by
          intro hc
          exact hbk (beq_iff_eq.mp hc)
        rw [List.filter_cons, if_neg hne, ih, List.filter_cons, if_neg hne]
        by_cases hks : k ∈ seen
        · rw [if_pos hks, if_pos (List.mem_cons_of_mem _ hks)]
        · rw [if_neg hks, if_neg (by
            intro hc
            rcases List.mem_cons.mp hc with hc | hc
            · exact hbk hc.symm
            · exact hks hc)]

/-- C1: `flush` emits (buffered) or enqueues (stream) a block exactly when
its signature key is not already in `Seen`, inserting the key at that
moment; over a sequence of flushed blocks the pending queue receives
exactly the first-seen representatives in input order, and per key the kept
block is the earliest input block with that key. -/
theorem c1_dedup_first_seen :
    (∀ (o : Opts) (st : ProcState), st.raw ≠ [] → st.raw.length ≤ maxBlockSize →
      (generate_signature_key o st ∈ st.seen →
        flush o st = .ok (clear_current_state st)) ∧
      (generate_signature_key o st ∉ st.seen → o.stream_mode = true →
        st.pending.length ≤ maxPendingBlocks →
        flush o st = .ok { clear_current_state st with
                           seen := generate_signature_key o st :: st.seen,
                           pending := st.pending ++ [st.raw ++ ['\n']] }) ∧
      (generate_signature_key o st ∉ st.seen → o.stream_mode = false →
        flush o st = .ok { clear_current_state st with
                           seen := generate_signature_key o st :: st.seen,
                           out := st.out ++ st.raw ++ ['\n'] })) ∧
    (∀ (o : Opts) (bs : List BlockData), o.stream_mode = true →
      (∀ b ∈ bs, b.raw ≠ [] ∧ b.raw.length ≤ maxBlockSize) →
      bs.length ≤ maxPendingBlocks + 1 →
      (flushBlocks o initState bs).map (fun stf => stf.pending) =
        .ok ((dedupFirstSpec o [] bs).map (fun b => b.raw ++ ['\n']))) ∧
    (∀ (o : Opts) (seen : List (List Char)) (bs : List BlockData) (k : List Char),
      (dedupFirstSpec o seen bs).filter (fun b => keyOf o b == k) =
        if k ∈ seen then [] else (bs.filter (fun b => keyOf o b == k)).take 1) := by
  refine ⟨fun o st h1 h2 => ⟨fun h3 => flush_dup o st h1 h2 h3,
      fun h3 h4 h5 => flush_fresh_stream o st h1 h2 h3 h4 h5,
      fun h3 h4 => flush_fresh_buffered o st h1 h2 h3 h4⟩,
    fun o bs hs hb hlen => ?_,
    fun o seen bs k => dedupFirstSpec_filter o bs seen k⟩
  obtain ⟨stf, he, hp, _, _⟩ := flushBlocks_ok o hs bs initState hb
    (by simpa [initState] using hlen)
  rw [he, Except.map, hp]
  rfl

/-- C1 witness: a three-block sequence whose first and third block share a
key; the pending queue receives the first and second block only, and the
per-key filter selects the earliest. -/
theorem c1_dedup_first_seen_witness :
    flush ⟨1, true, true, true, "M".data⟩
      ⟨['x', '\n'], ['x', '\n'], [['x']], [['x', '\n']], [], false, []⟩ =
        .ok (clear_current_state
          ⟨['x', '\n'], ['x', '\n'], [['x']], [['x', '\n']], [], false, []⟩) ∧
    (flushBlocks ⟨1, true, true, true, "M".data⟩ initState
      [⟨['x', '\n'], ['x', '\n'], [['x']]⟩, ⟨['y', '\n'], ['y', '\n'], [['y']]⟩,
       ⟨['z', '\n'], ['x', '\n'], [['x']]⟩]).map (fun stf => stf.pending) =
      .ok ((dedupFirstSpec ⟨1, true, true, true, "M".data⟩ []
        [⟨['x', '\n'], ['x', '\n'], [['x']]⟩, ⟨['y', '\n'], ['y', '\n'], [['y']]⟩,
         ⟨['z', '\n'], ['x', '\n'], [['x']]⟩]).map (fun b => b.raw ++ ['\n'])) ∧
    (dedupFirstSpec ⟨1, true, true, true, "M".data⟩ []
        [⟨['x', '\n'], ['x', '\n'], [['x']]⟩, ⟨['y', '\n'], ['y', '\n'], [['y']]⟩,
         ⟨['z', '\n'], ['x', '\n'], [['x']]⟩]).filter
        (fun b => keyOf ⟨1, true, true, true, "M".data⟩ b == "x\n".data) =
      if ("x\n".data : List Char) ∈ ([] : List (List Char)) then [] else
        ([⟨['x', '\n'], ['x', '\n'], [['x']]⟩, ⟨['y', '\n'], ['y', '\n'], [['y']]⟩,
          ⟨['z', '\n'], ['x', '\n'], [['x']]⟩].filter
          (fun b => keyOf ⟨1, true, true, true, "M".data⟩ b == "x\n".data)).take 1 := by
  refine ⟨?_, ?_, ?_⟩
  · exact (c1_dedup_first_seen.1 ⟨1, true, true, true, "M".data⟩
      ⟨['x', '\n'], ['x', '\n'], [['x']], [['x', '\n']], [], false, []⟩
      (by decide) (by decide)).1 (by decide)
  · exact c1_dedup_first_seen.2.1 ⟨1, true, true, true, "M".data⟩
      [⟨['x', '\n'], ['x', '\n'], [['x']]⟩, ⟨['y', '\n'], ['y', '\n'], [['y']]⟩,
       ⟨['z', '\n'], ['x', '\n'], [['x']]⟩] rfl (by decide) (by decide)
  · exact c1_dedup_first_seen.2.2 ⟨1, true, true, true, "M".data⟩ []
      [⟨['x', '\n'], ['x', '\n'], [['x']]⟩, ⟨['y', '\n'], ['y', '\n'], [['y']]⟩,
       ⟨['z', '\n'], ['x', '\n'], [['x']]⟩] "x\n".data

/-- A successful `flush` keeps the pending queue within
`MAX_PENDING_BLOCKS + 1` entries: it appends only after checking that the
count before the append does not exceed the limit. -/
theorem flush_pending_bound {o : Opts} {st st' : ProcState}
    (hb : st.pending.length ≤ maxPendingBlocks + 1)
    (h : flush o st = .ok st') : st'.pending.length ≤ maxPendingBlocks + 1 := by
  rcases flush_spec o st with ⟨_, he⟩ | ⟨_, _, he⟩ | ⟨_, _, _, he⟩ |
    ⟨_, _, _, _, _, he⟩ | ⟨_, _, _, _, hroom, he⟩ | ⟨_, _, _, _, he⟩ <;>
    rw [he] at h
  · injection h with h; subst h; exact hb
  · cases h
  · injection h with h; subst h; exact hb
  · cases h
  · injection h with h; subst h
    simp only [List.length_append, List.length_cons, List.length_nil]
    omega
  · injection h with h; subst h; exact hb

/-- A successful `process_line` keeps the pending queue within
`MAX_PENDING_BLOCKS + 1` entries. -/
theorem process_line_pending_bound {o : Opts} {st st' : ProcState} {l : List Char}
    (hb : st.pending.length ≤ maxPendingBlocks + 1)
    (h : process_line o st l = .ok st') :
    st'.pending.length ≤ maxPendingBlocks + 1 := by
  rcases process_line_spec o st l with ⟨_, he⟩ | ⟨_, _, he⟩ |
    ⟨_, _, _, hrest⟩ | ⟨_, _, _, hrest⟩
  · rw [he] at h; injection h with h; subst h
    simp [reset_epoch]
  · rw [he] at h; injection h with h; subst h; exact hb
  · rcases hrest with ⟨e, _, he⟩ | ⟨st1, hflush, hrest⟩
    · rw [he] at h; cases h
    · have h1 := flush_pending_bound hb hflush
      rcases hrest with ⟨_, he⟩ | ⟨_, _, he⟩ | ⟨_, _, he⟩ <;> rw [he] at h <;>
        injection h with h <;> subst h
      · exact h1
      · exact h1
      · exact h1
  · rcases hrest with ⟨_, he⟩ | ⟨_, he⟩ <;> rw [he] at h <;>
      injection h with h <;> subst h
    · exact hb
    · exact hb

/-- The read loop keeps the pending queue within
`MAX_PENDING_BLOCKS + 1` entries. -/
theorem feedLines_pending_bound {o : Opts} :
    ∀ (lines : List (List Char)) (st : ProcState),
      st.pending.length ≤ maxPendingBlocks + 1 →
      ((feedLines o st lines).1).pending.length ≤ maxPendingBlocks + 1 := by
  intro lines
  induction lines with
  | nil => intro st hb; exact hb
  | cons l ls ih =>
    intro st hb
    simp only [feedLines]
    split
    · exact hb
    · cases hpl : process_line o st l with
      | error e => exact hb
      | ok st' => exact ih st' (process_line_pending_bound hb hpl)

/-- C6 amended: the pending queue never exceeds `MAX_PENDING_BLOCKS + 1`
entries (the count is validated before each append, so one block beyond the
limit can be stored; only the attempt to add a block past 1001 is fatal):
every successful `flush` and `process_line`, the read loop, and a whole
`process_stream` run preserve `Pending.len() ≤ 1001`. -/
theorem c6_pending_bound_amended :
    (∀ (o : Opts) (st st' : ProcState),
      st.pending.length ≤ maxPendingBlocks + 1 → flush o st = .ok st' →
      st'.pending.length ≤ maxPendingBlocks + 1) ∧
    (∀ (o : Opts) (st st' : ProcState) (l : List Char),
      st.pending.length ≤ maxPendingBlocks + 1 → process_line o st l = .ok st' →
      st'.pending.length ≤ maxPendingBlocks + 1) ∧
    (∀ (o : Opts) (lines : List (List Char)) (st : ProcState),
      st.pending.length ≤ maxPendingBlocks + 1 →
      ((feedLines o st lines).1).pending.length ≤ maxPendingBlocks + 1) ∧
    (∀ (o : Opts) (lines : List (List Char)),
      ((process_stream o lines).1).pending.length ≤ maxPendingBlocks + 1) := by
  refine ⟨fun o st st' hb h => flush_pending_bound hb h,
    fun o st st' l hb h => process_line_pending_bound hb h,
    fun o lines st hb => feedLines_pending_bound lines st hb,
    fun o lines => ?_⟩
  unfold process_stream runFrom
  cases hfeed : feedLines o initState lines with
  | mk st oe =>
    have hb : st.pending.length ≤ maxPendingBlocks + 1 := by
      have := feedLines_pending_bound (o := o) lines initState (by simp [initState])
      rw [hfeed] at this
      exact this
    cases oe with
    | some e => exact hb
    | none =>
      cases hflush : flush o st with
      | error e => simp only [hflush]; exact hb
      | ok st' =>
        simp only [hflush]
        have hb' := flush_pending_bound hb hflush
        unfold output_pending_blocks
        split
        · exact hb'
        · exact hb'

/-- C6 amended witness: the bound parts applied to the counterexample
state with 1000 pending blocks, a one-line read loop, and a concrete
stream run. -/
theorem c6_pending_bound_amended_witness :
    (clear_current_state initState).pending.length ≤ maxPendingBlocks + 1 ∧
    ((feedLines c6opt initState ["==10== Invalid read x".data]).1).pending.length ≤
      maxPendingBlocks + 1 ∧
    ((process_stream c6opt ["==10== Invalid read x".data]).1).pending.length ≤
      maxPendingBlocks + 1 :=
  ⟨c6_pending_bound_amended.1 c6opt initState (clear_current_state initState)
     (by decide) (by decide),
   c6_pending_bound_amended.2.2.1 c6opt ["==10== Invalid read x".data] initState
     (by decide),
   c6_pending_bound_amended.2.2.2 c6opt ["==10== Invalid read x".data]⟩

/-! ### Occurrence infrastructure -/

/-- Unfolding of `occAny` on a cons cell. -/
theorem occAny_cons (M : List Char → Bool) (c : Char) (cs : List Char) :
    occAny M (c :: cs) = (M (c :: cs) || occAny M cs) := rfl

/-- Splitting a negative occurrence fact on a cons cell. -/
theorem occAny_false_cons {M : List Char → Bool} {c : Char} {cs : List Char}
    (h : occAny M (c :: cs) = false) :
    M (c :: cs) = false ∧ occAny M cs = false := by
  rw [occAny_cons] at h
  exact ⟨(Bool.or_eq_false_iff.mp h).1, (Bool.or_eq_false_iff.mp h).2⟩

/-- A match at the head is an occurrence. -/
theorem occAny_of_M {M : List Char → Bool} :
    ∀ {l : List Char}, M l = true → occAny M l = true := by
  intro l h
  cases l with
  | nil => exact h
  | cons c cs => rw [occAny_cons, h, Bool.true_or]

/-- Occurrences extend along list append, for matchers monotone under
right extension. -/
theorem occAny_append_left {M : List Char → Bool}
    (hM : ∀ u v, M u = true → M (u ++ v) = true) :
    ∀ (l t : List Char), occAny M l = true → occAny M (l ++ t) = true := by
  intro l
  induction l with
  | nil =>
    intro t h
    exact occAny_of_M (hM [] t h)
  | cons c cs ih =>
    intro t h
    rw [occAny_cons] at h
    rcases Bool.or_eq_true_iff.mp h with h | h
    · exact occAny_of_M (hM (c :: cs) t h)
    · rw [List.cons_append, occAny_cons, ih t h, Bool.or_true]

/-- Occurrences persist from a prefix into the whole list, for matchers
monotone under right extension. -/
theorem occAny_of_pfx {M : List Char → Bool}
    (hM : ∀ u v, M u = true → M (u ++ v) = true) {l₁ l₂ : List Char}
    (hp : l₁ <+: l₂) (h : occAny M l₁ = true) : occAny M l₂ = true := by
  obtain ⟨t, rfl⟩ := hp
  exact occAny_append_left hM l₁ t h

/-- Absence of occurrences passes to the tail. -/
theorem occAny_false_tail {M : List Char → Bool} {c : Char} {cs : List Char}
    (h : occAny M (c :: cs) = false) : occAny M cs = false :=
  (occAny_false_cons h).2

/-- Absence of occurrences passes to a `dropWhile` suffix. -/
theorem occAny_false_dropWhile {M : List Char → Bool} (q : Char → Bool) :
    ∀ {l : List Char}, occAny M l = false →
      occAny M (l.dropWhile q) = false := by
  intro l
  induction l with
  | nil => intro h; exact h
  | cons c cs ih =>
    intro h
    rw [List.dropWhile_cons]
    split
    · exact ih (occAny_false_tail h)
    · exact h

/-- Absence of occurrences passes to an `rdropWhile` prefix, for matchers
monotone under right extension. -/
theorem occAny_false_rdropWhile {M : List Char → Bool}
    (hM : ∀ u v, M u = true → M (u ++ v) = true) (q : Char → Bool)
    {l : List Char} (h : occAny M l = false) :
    occAny M (l.rdropWhile q) = false := by
  cases hocc : occAny M (l.rdropWhile q) with
  | false => rfl
  | true =>
    rw [occAny_of_pfx hM (List.rdropWhile_prefix q l) hocc] at h
    cases h

/-- When the kept part of a `takeWhile`/`dropWhile` split is interrupted
inside the left list, appending on the right changes neither part. -/
theorem takeWhile_dropWhile_append {q : Char → Bool} :
    ∀ {xs : List Char} (ys : List Char), xs.dropWhile q ≠ [] →
      (xs ++ ys).takeWhile q = xs.takeWhile q ∧
      (xs ++ ys).dropWhile q = xs.dropWhile q ++ ys := by
  intro xs
  induction xs with
  | nil =>
    intro ys h
    exact absurd rfl h
  | cons c cs ih =>
    intro ys h
    rw [List.dropWhile_cons] at h
    by_cases hq : q c = true
    · rw [if_pos hq] at h
      have := ih ys h
      constructor
      · rw [List.cons_append, List.takeWhile_cons_of_pos hq,
          List.takeWhile_cons_of_pos hq, this.1]
      · rw [List.cons_append, List.dropWhile_cons_of_pos hq,
          List.dropWhile_cons_of_pos hq, this.2]
    · constructor
      · rw [List.cons_append, List.takeWhile_cons_of_neg hq,
          List.takeWhile_cons_of_neg hq]
      · rw [List.cons_append, List.dropWhile_cons_of_neg hq,
          List.dropWhile_cons_of_neg hq]
        rfl

/-- `lineAt` is monotone under right extension. -/
theorem lineAt_append (u v : List Char) (h : lineAt u = true) :
    lineAt (u ++ v) = true := by
  match u with
  | c :: d :: rest => exact h
  | [] => cases h
  | [c] => cases h

/-- `wsPairAt` is monotone under right extension. -/
theorem wsPairAt_append (u v : List Char) (h : wsPairAt u = true) :
    wsPairAt (u ++ v) = true := by
  match u with
  | a :: b :: rest => exact h
  | [] => cases h
  | [a] => cases h

/-- `addrAt` is monotone under right extension. -/
theorem addrAt_append (u v : List Char) (h : addrAt u = true) :
    addrAt (u ++ v) = true := by
  match u with
  | a :: b :: c :: rest => exact h
  | [] => cases h
  | [a] => cases h
  | [a, b] => cases h

/-- `arrAt` is monotone under right extension. -/
theorem arrAt_append (u v : List Char) (h : arrAt u = true) :
    arrAt (u ++ v) = true := by
  cases u with
  | nil => cases h
  | cons c rest =>
    simp only [arrAt, Bool.and_eq_true, beq_iff_eq] at h
    obtain ⟨⟨hc, hne⟩, hhead⟩ := h
    have hdw : rest.dropWhile isDigitB ≠ [] := by
      intro hnil
      rw [hnil] at hhead
      cases hhead
    have hsplit := takeWhile_dropWhile_append (q := isDigitB) v hdw
    rw [List.cons_append]
    simp only [arrAt, Bool.and_eq_true, beq_iff_eq]
    refine ⟨⟨hc, ?_⟩, ?_⟩
    · rw [hsplit.1]
      exact hne
    · rw [hsplit.2]
      cases hrest : rest.dropWhile isDigitB with
      | nil => exact absurd hrest hdw
      | cons a t =>
        rw [hrest] at hhead
        simp only [List.head?_cons, Option.some.injEq] at hhead
        rw [List.cons_append, List.head?_cons, hhead]

/-- `tmplBadAt` is monotone under right extension. -/
theorem tmplBadAt_append (u v : List Char) (h : tmplBadAt u = true) :
    tmplBadAt (u ++ v) = true := by
  cases u with
  | nil => cases h
  | cons c rest =>
    simp only [tmplBadAt, Bool.and_eq_true, beq_iff_eq, decide_eq_true_eq] at h
    obtain ⟨⟨hc, hmem⟩, htake⟩ := h
    rw [List.cons_append]
    simp only [tmplBadAt, Bool.and_eq_true, beq_iff_eq, decide_eq_true_eq]
    refine ⟨⟨hc, List.mem_append_left v hmem⟩, ?_⟩
    rw [Bool.not_eq_true', beq_eq_false_iff_ne] at htake ⊢
    intro hcon
    cases rest with
    | nil => simp at hmem
    | cons a t =>
      cases t with
      | nil =>
        have ha : a = '>' := by
          have := hmem
          simp at this
          exact this.symm
        subst ha
        have hred : List.take 2 (['>'] ++ v) = '>' :: List.take 1 v := rfl
        rw [hred] at hcon
        injection hcon with h1 _
        exact absurd h1 (by decide)
      | cons b t2 =>
        apply htake
        have hred : List.take 2 ((a :: b :: t2) ++ v) = [a, b] := rfl
        have hred2 : List.take 2 (a :: b :: t2) = [a, b] := rfl
        rw [hred] at hcon
        rw [hred2, hcon]

/-! ### Head and boundary properties of the scanners -/

/-- The line scanner preserves the head character. -/
theorem lineGo_head (f : Nat) (l : List Char) : (lineGo f l).head? = l.head? := by
  cases f with
  | zero => rfl
  | succ f =>
    cases l with
    | nil => rfl
    | cons c cs =>
      simp only [lineGo]
      split
      · rename_i h
        rw [h.1]
        rfl
      · rfl

/-- The array scanner preserves the head character. -/
theorem arrGo_head (f : Nat) (l : List Char) : (arrGo f l).head? = l.head? := by
  cases f with
  | zero => rfl
  | succ f =>
    cases l with
    | nil => rfl
    | cons c cs =>
      simp only [arrGo]
      split
      · rename_i h
        rw [h.1]
        rfl
      · rfl

/-- The template scanner preserves the head character. -/
theorem tmplGo_head (f : Nat) (l : List Char) : (tmplGo f l).head? = l.head? := by
  cases f with
  | zero => rfl
  | succ f =>
    cases l with
    | nil => rfl
    | cons c cs =>
      simp only [tmplGo]
      split
      · rename_i h
        split
        · rw [h]
          rfl
        · rfl
      · rfl

/-- The address scanner preserves the head character. -/
theorem addrGo_head (f : Nat) (l : List Char) : (addrGo f l).head? = l.head? := by
  cases f with
  | zero => rfl
  | succ f =>
    cases l with
    | nil => rfl
    | cons c cs =>
      simp only [addrGo]
      split
      · rename_i h
        rw [h.1]
        rfl
      · rfl

/-- The whitespace scanner either preserves the head character or turns a
whitespace head into a space. -/
theorem wsGo_head (f : Nat) (l : List Char) :
    (wsGo f l).head? = l.head? ∨
    ((wsGo f l).head? = some ' ' ∧ ∃ d, l.head? = some d ∧ isWsB d = true) := by
  cases f with
  | zero => exact Or.inl rfl
  | succ f =>
    cases l with
    | nil => exact Or.inl rfl
    | cons c cs =>
      simp only [wsGo]
      split
      · rename_i h
        exact Or.inr ⟨rfl, c, rfl, h.1⟩
      · exact Or.inl rfl

/-- A character produced by the whitespace scanner that is not whitespace
was present in the input. -/
theorem wsGo_mem (f : Nat) : ∀ (l : List Char) (c : Char), c ∈ wsGo f l →
    isWsB c = false → c ∈ l := by
  induction f with
  | zero => intro l c hc _; exact hc
  | succ f ih =>
    intro l c hc hws
    cases l with
    | nil => exact hc
    | cons a cs =>
      revert hc
      simp only [wsGo]
      split
      · intro hc
        rcases List.mem_cons.mp hc with hc | hc
        · rw [hc] at hws; cases hws
        · exact List.mem_cons_of_mem _
            ((List.dropWhile_sublist _).mem (ih _ c hc hws))
      · intro hc
        rcases List.mem_cons.mp hc with hc | hc
        · exact hc ▸ List.mem_cons_self _ _
        · exact List.mem_cons_of_mem _ (ih _ c hc hws)

/-- The whitespace scanner leaves a leading `T>` untouched. -/
theorem wsGo_take2_T (f : Nat) (rest : List Char) :
    (wsGo f ('T' :: '>' :: rest)).take 2 = ['T', '>'] := by
  cases f with
  | zero => rfl
  | succ f =>
    have h1 : wsGo (f + 1) ('T' :: '>' :: rest) = 'T' :: wsGo f ('>' :: rest) := by
      simp [wsGo, isWsB]
    rw [h1]
    cases f with
    | zero => rfl
    | succ f =>
      have h2 : wsGo (f + 1) ('>' :: rest) = '>' :: wsGo f rest := by
        simp [wsGo, isWsB]
      rw [h2]
      rfl

/-- If the array scanner's output has `]` right after its leading digit
run, so does its input. -/
theorem arrGo_digit_head (f : Nat) : ∀ (l : List Char),
    ((arrGo f l).dropWhile isDigitB).head? = some ']' →
    (l.dropWhile isDigitB).head? = some ']' := by
  induction f with
  | zero => intro l h; exact h
  | succ f ih =>
    intro l h
    cases l with
    | nil => exact h
    | cons c cs =>
      revert h
      simp only [arrGo]
      split
      · intro h
        exfalso
        rw [List.dropWhile_cons_of_neg (by decide)] at h
        rw [List.head?_cons] at h
        injection h with h
        exact absurd h (by decide)
      · intro h
        by_cases hd : isDigitB c
        · rw [List.dropWhile_cons_of_pos hd] at h ⊢
          exact ih cs h
        · rw [List.dropWhile_cons_of_neg hd] at h ⊢
          exact h

/-- If the template scanner's output has `]` right after its leading digit
run, so does its input. -/
theorem tmplGo_digit_head (f : Nat) : ∀ (l : List Char),
    ((tmplGo f l).dropWhile isDigitB).head? = some ']' →
    (l.dropWhile isDigitB).head? = some ']' := by
  induction f with
  | zero => intro l h; exact h
  | succ f ih =>
    intro l h
    cases l with
    | nil => exact h
    | cons c cs =>
      revert h
      simp only [tmplGo]
      split
      · split
        · intro h
          exfalso
          rw [List.dropWhile_cons_of_neg (by decide)] at h
          rw [List.head?_cons] at h
          injection h with h
          exact absurd h (by decide)
        · intro h
          exact h
      · intro h
        by_cases hd : isDigitB c
        · rw [List.dropWhile_cons_of_pos hd] at h ⊢
          exact ih cs h
        · rw [List.dropWhile_cons_of_neg hd] at h ⊢
          exact h

/-- If the whitespace scanner's output has `]` right after its leading
digit run, so does its input. -/
theorem wsGo_digit_head (f : Nat) : ∀ (l : List Char),
    ((wsGo f l).dropWhile isDigitB).head? = some ']' →
    (l.dropWhile isDigitB).head? = some ']' := by
  induction f with
  | zero => intro l h; exact h
  | succ f ih =>
    intro l h
    cases l with
    | nil => exact h
    | cons c cs =>
      revert h
      simp only [wsGo]
      split
      · intro h
        exfalso
        rw [List.dropWhile_cons_of_neg (by decide)] at h
        rw [List.head?_cons] at h
        injection h with h
        exact absurd h (by decide)
      · intro h
        by_cases hd : isDigitB c
        · rw [List.dropWhile_cons_of_pos hd] at h ⊢
          exact ih cs h
        · rw [List.dropWhile_cons_of_neg hd] at h ⊢
          exact h

/-- Without any `>` in the list, the template rule has no site. -/
theorem occAny_tmplBadAt_no_gt : ∀ (l : List Char), '>' ∉ l →
    occAny tmplBadAt l = false := by
  intro l
  induction l with
  | nil => intro _; rfl
  | cons c cs ih =>
    intro hmem
    rw [occAny_cons, Bool.or_eq_false_iff]
    constructor
    · simp only [tmplBadAt, Bool.and_eq_true, beq_iff_eq, decide_eq_true_eq]
      have : '>' ∉ cs := fun h => hmem (List.mem_cons_of_mem _ h)
      cases hc : decide ('>' ∈ cs) with
      | false => simp [this]
      | true => exact absurd (of_decide_eq_true hc) this
    · exact ih (fun h => hmem (List.mem_cons_of_mem _ h))

/-! ### The scanners are the identity where their pattern is absent -/

/-- The address scanner fixes lists with no address site. -/
theorem addrGo_fix : ∀ (f : Nat) (l : List Char),
    occAny addrAt l = false → addrGo f l = l := by
  intro f
  induction f with
  | zero => intro l _; rfl
  | succ f ih =>
    intro l hocc
    cases l with
    | nil => rfl
    | cons c cs =>
      have hM := (occAny_false_cons hocc).1
      have hocc' := (occAny_false_cons hocc).2
      simp only [addrGo]
      rw [if_neg ?_, ih cs hocc']
      rintro ⟨hc, hx, hne⟩
      cases cs with
      | nil => simp at hx
      | cons x cs' =>
        have hx' : x = 'x' := by
          rw [List.head?_cons] at hx
          injection hx
        cases cs' with
        | nil => exact hne rfl
        | cons d cs2 =>
          by_cases hd : isHexB d
          · subst hc
            subst hx'
            simp [addrAt, hd] at hM
          · rw [show (x :: d :: cs2 : List Char).tail = d :: cs2 from rfl] at hne
            rw [List.takeWhile_cons_of_neg hd] at hne
            exact hne rfl

/-- The line scanner fixes lists with no line-number site. -/
theorem lineGo_fix : ∀ (f : Nat) (l : List Char),
    occAny lineAt l = false → lineGo f l = l := by
  intro f
  induction f with
  | zero => intro l _; rfl
  | succ f ih =>
    intro l hocc
    cases l with
    | nil => rfl
    | cons c cs =>
      have hM := (occAny_false_cons hocc).1
      have hocc' := (occAny_false_cons hocc).2
      simp only [lineGo]
      rw [if_neg ?_, ih cs hocc']
      rintro ⟨hc, hne⟩
      cases cs with
      | nil => exact hne rfl
      | cons d cs' =>
        by_cases hd : isDigitB d
        · subst hc
          simp [lineAt, hd] at hM
        · rw [List.takeWhile_cons_of_neg hd] at hne
          exact hne rfl

/-- The array scanner fixes lists with no digit-bracket site (the
digit-free `[]` spans it rewrites are rewritten to themselves). -/
theorem arrGo_fix : ∀ (f : Nat) (l : List Char),
    occAny arrAt l = false → arrGo f l = l := by
  intro f
  induction f with
  | zero => intro l _; rfl
  | succ f ih =>
    intro l hocc
    cases l with
    | nil => rfl
    | cons c cs =>
      have hM := (occAny_false_cons hocc).1
      have hocc' := (occAny_false_cons hocc).2
      by_cases hcond : c = '[' ∧ (cs.dropWhile isDigitB).head? = some ']'
      · obtain ⟨hc, hhead⟩ := hcond
        have htw : cs.takeWhile isDigitB = [] := by
          by_contra hne
          rw [hc] at hM
          simp [arrAt, List.isEmpty_iff, hne, hhead] at hM
        have hdw : cs.dropWhile isDigitB = cs := by
          cases cs with
          | nil => rfl
          | cons d cs2 =>
            by_cases hd : isDigitB d
            · rw [List.takeWhile_cons_of_pos hd] at htw
              cases htw
            · rw [List.dropWhile_cons_of_neg hd]
        rw [hdw] at hhead
        simp only [arrGo]
        rw [if_pos ⟨hc, by rw [hdw]; exact hhead⟩, hdw]
        cases cs with
        | nil => simp at hhead
        | cons e cs2 =>
          have he : e = ']' := by
            rw [List.head?_cons] at hhead
            injection hhead
          subst he
          rw [show ((']' :: cs2 : List Char).tail) = cs2 from rfl,
            ih cs2 (occAny_false_tail hocc'), hc]
      · simp only [arrGo]
        rw [if_neg hcond, ih cs hocc']

/-- The template scanner fixes lists with no rewriting template site. -/
theorem tmplGo_fix : ∀ (f : Nat) (l : List Char),
    occAny tmplBadAt l = false → tmplGo f l = l := by
  intro f
  induction f with
  | zero => intro l _; rfl
  | succ f ih =>
    intro l hocc
    cases l with
    | nil => rfl
    | cons c cs =>
      have hM := (occAny_false_cons hocc).1
      have hocc' := (occAny_false_cons hocc).2
      by_cases hlt : c = '<'
      · by_cases hmem : '>' ∈ cs
        · have htake : cs.take 2 = ['T', '>'] := by
            rw [hlt] at hM
            simp [tmplBadAt, hmem] at hM
            exact hM
          cases cs with
          | nil => cases htake
          | cons a cs1 =>
            cases cs1 with
            | nil =>
              rw [show List.take 2 [a] = [a] from rfl] at htake
              injection htake with h1 h2
              cases h2
            | cons b cs2 =>
              have hab : a = 'T' ∧ b = '>' := by
                rw [show List.take 2 (a :: b :: cs2) = [a, b] from rfl] at htake
                injection htake with h1 h2
                injection h2 with h2 _
                exact ⟨h1, h2⟩
              obtain ⟨ha, hb⟩ := hab
              subst ha
              subst hb
              simp only [tmplGo]
              rw [if_pos hlt, if_pos hmem]
              have hdrop : (('T' :: '>' :: cs2).dropWhile (· ≠ '>')).tail = cs2 := by
                rw [List.dropWhile_cons_of_pos (by decide),
                  List.dropWhile_cons_of_neg (by decide)]
                rfl
              rw [hdrop,
                ih cs2 (occAny_false_tail (occAny_false_tail hocc')), hlt]
        · simp only [tmplGo]
          rw [if_pos hlt, if_neg hmem]
      · simp only [tmplGo]
        rw [if_neg hlt, ih cs hocc']

/-- The whitespace scanner fixes lists with no adjacent whitespace pair. -/
theorem wsGo_fix : ∀ (f : Nat) (l : List Char),
    occAny wsPairAt l = false → wsGo f l = l := by
  intro f
  induction f with
  | zero => intro l _; rfl
  | succ f ih =>
    intro l hocc
    cases l with
    | nil => rfl
    | cons c cs =>
      have hM := (occAny_false_cons hocc).1
      have hocc' := (occAny_false_cons hocc).2
      simp only [wsGo]
      rw [if_neg ?_, ih cs hocc']
      rintro ⟨hws, hany⟩
      cases cs with
      | nil => simp at hany
      | cons d cs2 =>
        have hd : isWsB d = true := by simpa using hany
        simp [wsPairAt, hws, hd] at hM

/-! ### The scanners' outputs contain no site of their own pattern -/

/-- `lineAt` needs a leading colon. -/
theorem lineAt_cons_ne {c : Char} (h : (c == ':') = false) (cs : List Char) :
    lineAt (c :: cs) = false := by
  cases cs with
  | nil => rfl
  | cons d r => simp [lineAt, h]

/-- `arrAt` needs a leading opening bracket. -/
theorem arrAt_cons_ne {c : Char} (h : (c == '[') = false) (cs : List Char) :
    arrAt (c :: cs) = false := by
  simp [arrAt, h]

/-- `tmplBadAt` needs a leading opening angle. -/
theorem tmplBadAt_cons_ne {c : Char} (h : (c == '<') = false) (cs : List Char) :
    tmplBadAt (c :: cs) = false := by
  simp [tmplBadAt, h]

/-- `wsPairAt` needs a leading whitespace byte. -/
theorem wsPairAt_cons_ne {c : Char} (h : isWsB c = false) (cs : List Char) :
    wsPairAt (c :: cs) = false := by
  cases cs with
  | nil => rfl
  | cons d r => simp [wsPairAt, h]

/-- The line scanner's output has no line-number site. -/
theorem lineGo_self : ∀ (f : Nat) (l : List Char), l.length ≤ f →
    occAny lineAt (lineGo f l) = false := by
  intro f
  induction f with
  | zero =>
    intro l hl
    cases l with
    | nil => rfl
    | cons c cs => simp at hl
  | succ f ih =>
    intro l hl
    cases l with
    | nil => rfl
    | cons c cs =>
      have hlen : cs.length ≤ f := by
        simp only [List.length_cons] at hl
        omega
      simp only [lineGo]
      split
      · rename_i hcond
        have hrec : occAny lineAt (lineGo f (cs.dropWhile isDigitB)) = false :=
          ih _ (le_trans (List.dropWhile_sublist _).length_le hlen)
        rw [occAny_cons, occAny_cons, occAny_cons, occAny_cons, occAny_cons]
        rw [show lineAt (':' :: 'L' :: 'I' :: 'N' :: 'E' ::
          lineGo f (cs.dropWhile isDigitB)) = false from rfl]
        rw [lineAt_cons_ne (by decide), lineAt_cons_ne (by decide),
          lineAt_cons_ne (by decide), lineAt_cons_ne (by decide), hrec]
        rfl
      · rename_i hcond
        rw [occAny_cons, ih cs hlen, Bool.or_false]
        by_cases hc : c = ':'
        · have htw : cs.takeWhile isDigitB = [] := by
            by_contra hne
            exact hcond ⟨hc, hne⟩
          cases hrecshape : lineGo f cs with
          | nil => rfl
          | cons d r =>
            have hd : cs.head? = some d := by
              rw [← lineGo_head f cs, hrecshape]
              rfl
            cases cs with
            | nil => simp at hd
            | cons e cs2 =>
              have hde : e = d := by
                rw [List.head?_cons] at hd
                injection hd
              subst hde
              by_cases hdig : isDigitB e
              · rw [List.takeWhile_cons_of_pos hdig] at htw
                cases htw
              · simp [lineAt, hc, hdig]
        · exact lineAt_cons_ne (beq_eq_false_iff_ne.mpr hc) _

/-- The array scanner's output has no digit-bracket site. -/
theorem arrGo_self : ∀ (f : Nat) (l : List Char), l.length ≤ f →
    occAny arrAt (arrGo f l) = false := by
  intro f
  induction f with
  | zero =>
    intro l hl
    cases l with
    | nil => rfl
    | cons c cs => simp at hl
  | succ f ih =>
    intro l hl
    cases l with
    | nil => rfl
    | cons c cs =>
      have hlen : cs.length ≤ f := by
        simp only [List.length_cons] at hl
        omega
      simp only [arrGo]
      split
      · rename_i hcond
        have hlen2 : ((cs.dropWhile isDigitB).tail).length ≤ f := by
          have h1 := (List.dropWhile_sublist (p := isDigitB) (l := cs)).length_le
          rw [List.length_tail]
          omega
        have hrec : occAny arrAt (arrGo f (cs.dropWhile isDigitB).tail) = false :=
          ih _ hlen2
        rw [occAny_cons, occAny_cons]
        rw [show arrAt ('[' :: ']' :: arrGo f (cs.dropWhile isDigitB).tail) =
          false from rfl]
        rw [arrAt_cons_ne (by decide), hrec]
        rfl
      · rename_i hcond
        rw [occAny_cons, ih cs hlen, Bool.or_false]
        by_cases hc : c = '['
        · have hnh : (cs.dropWhile isDigitB).head? ≠ some ']' :=
            fun h => hcond ⟨hc, h⟩
          cases harr : arrAt (c :: arrGo f cs) with
          | false => rfl
          | true =>
            exfalso
            rw [hc] at harr
            simp only [arrAt, Bool.and_eq_true, beq_iff_eq] at harr
            exact hnh (arrGo_digit_head f cs harr.2)
        · exact arrAt_cons_ne (beq_eq_false_iff_ne.mpr hc) _

/-- The template scanner's output has no rewriting template site. -/
theorem tmplGo_self : ∀ (f : Nat) (l : List Char), l.length ≤ f →
    occAny tmplBadAt (tmplGo f l) = false := by
  intro f
  induction f with
  | zero =>
    intro l hl
    cases l with
    | nil => rfl
    | cons c cs => simp at hl
  | succ f ih =>
    intro l hl
    cases l with
    | nil => rfl
    | cons c cs =>
      have hlen : cs.length ≤ f := by
        simp only [List.length_cons] at hl
        omega
      simp only [tmplGo]
      split
      · rename_i hc
        split
        · rename_i hmem
          have hlen2 : ((cs.dropWhile (· ≠ '>')).tail).length ≤ f := by
            have h1 := (List.dropWhile_sublist (p := fun x => decide (x ≠ '>'))
              (l := cs)).length_le
            rw [List.length_tail]
            omega
          have hrec : occAny tmplBadAt
              (tmplGo f (cs.dropWhile (· ≠ '>')).tail) = false :=
            ih _ hlen2
          rw [occAny_cons, occAny_cons, occAny_cons]
          rw [show tmplBadAt ('<' :: 'T' :: '>' ::
            tmplGo f (cs.dropWhile (· ≠ '>')).tail) = false from rfl]
          rw [tmplBadAt_cons_ne (by decide), tmplBadAt_cons_ne (by decide), hrec]
          rfl
        · rename_i hmem
          rw [occAny_cons, occAny_tmplBadAt_no_gt cs hmem, Bool.or_false]
          simp [tmplBadAt, hmem]
      · rename_i hc
        rw [occAny_cons, ih cs hlen, Bool.or_false]
        exact tmplBadAt_cons_ne (beq_eq_false_iff_ne.mpr hc) _

/-- The whitespace scanner's output has no adjacent whitespace pair. -/
theorem wsGo_self : ∀ (f : Nat) (l : List Char), l.length ≤ f →
    occAny wsPairAt (wsGo f l) = false := by
  intro f
  induction f with
  | zero =>
    intro l hl
    cases l with
    | nil => rfl
    | cons c cs => simp at hl
  | succ f ih =>
    intro l hl
    cases l with
    | nil => rfl
    | cons c cs =>
      have hlen : cs.length ≤ f := by
        simp only [List.length_cons] at hl
        omega
      simp only [wsGo]
      split
      · rename_i hcond
        have hrec : occAny wsPairAt (wsGo f (cs.dropWhile isWsB)) = false :=
          ih _ (le_trans (List.dropWhile_sublist _).length_le hlen)
        rw [occAny_cons, hrec, Bool.or_false]
        cases hr : wsGo f (cs.dropWhile isWsB) with
        | nil => rfl
        | cons d r =>
          have hnws : isWsB d = false := by
            rcases wsGo_head f (cs.dropWhile isWsB) with hh | ⟨hh, dd, hdd, hwdd⟩
            · rw [hr, List.head?_cons] at hh
              have h3 := List.head?_dropWhile_not isWsB cs
              rw [← hh] at h3
              exact h3
            · exfalso
              have h3 := List.head?_dropWhile_not isWsB cs
              rw [hdd] at h3
              simp only at h3
              rw [hwdd] at h3
              cases h3
          simp [wsPairAt, hnws]
      · rename_i hcond
        rw [occAny_cons, ih cs hlen, Bool.or_false]
        by_cases hcw : isWsB c
        · have hany : cs.head?.any isWsB = false := by
            cases hv : cs.head?.any isWsB with
            | false => rfl
            | true => exact absurd ⟨hcw, hv⟩ hcond
          cases hr : wsGo f cs with
          | nil => rfl
          | cons d r =>
            have hnws : isWsB d = false := by
              rcases wsGo_head f cs with hh | ⟨hh, dd, hdd, hwdd⟩
              · rw [hr, List.head?_cons] at hh
                rw [← hh] at hany
                simpa using hany
              · exfalso
                rw [hdd] at hany
                simp [hwdd] at hany
            simp [wsPairAt, hnws]
        · exact wsPairAt_cons_ne (by simpa using hcw) _

/-! ### Later scanners do not create earlier patterns -/

/-- The array scanner creates no line-number site. -/
theorem arrGo_keeps_lineFree : ∀ (f : Nat) (l : List Char),
    occAny lineAt l = false → occAny lineAt (arrGo f l) = false := by
  intro f
  induction f with
  | zero => intro l h; exact h
  | succ f ih =>
    intro l hocc
    cases l with
    | nil => exact hocc
    | cons c cs =>
      have hM := (occAny_false_cons hocc).1
      have hocc' := (occAny_false_cons hocc).2
      simp only [arrGo]
      split
      · rename_i hcond
        have hdw : occAny lineAt (cs.dropWhile isDigitB) = false :=
          occAny_false_dropWhile _ hocc'
        have htail : occAny lineAt (cs.dropWhile isDigitB).tail = false := by
          cases hsh : cs.dropWhile isDigitB with
          | nil => rfl
          | cons a t =>
            rw [hsh] at hdw
            exact occAny_false_tail hdw
        rw [occAny_cons, occAny_cons, lineAt_cons_ne (by decide),
          lineAt_cons_ne (by decide), ih _ htail]
        rfl
      · rename_i hcond
        rw [occAny_cons, ih cs hocc', Bool.or_false]
        by_cases hc : c = ':'
        · cases hsh : arrGo f cs with
          | nil => rfl
          | cons d r =>
            have hd : cs.head? = some d := by
              rw [← arrGo_head f cs, hsh]
              rfl
            cases cs with
            | nil => simp at hd
            | cons e cs2 =>
              rw [List.head?_cons] at hd
              injection hd with hd
              subst hd
              subst hc
              have he : isDigitB e = false := by simpa [lineAt] using hM
              simp [lineAt, he]
        · exact lineAt_cons_ne (beq_eq_false_iff_ne.mpr hc) _

/-- The template scanner creates no line-number site. -/
theorem tmplGo_keeps_lineFree : ∀ (f : Nat) (l : List Char),
    occAny lineAt l = false → occAny lineAt (tmplGo f l) = false := by
  intro f
  induction f with
  | zero => intro l h; exact h
  | succ f ih =>
    intro l hocc
    cases l with
    | nil => exact hocc
    | cons c cs =>
      have hM := (occAny_false_cons hocc).1
      have hocc' := (occAny_false_cons hocc).2
      simp only [tmplGo]
      split
      · split
        · have hdw : occAny lineAt (cs.dropWhile (· ≠ '>')) = false :=
            occAny_false_dropWhile _ hocc'
          have htail : occAny lineAt (cs.dropWhile (· ≠ '>')).tail = false := by
            cases hsh : cs.dropWhile (· ≠ '>') with
            | nil => rfl
            | cons a t =>
              rw [hsh] at hdw
              exact occAny_false_tail hdw
          rw [occAny_cons, occAny_cons, occAny_cons, lineAt_cons_ne (by decide),
            lineAt_cons_ne (by decide), lineAt_cons_ne (by decide), ih _ htail]
          rfl
        · exact hocc
      · rename_i hc
        rw [occAny_cons, ih cs hocc', Bool.or_false]
        by_cases hcc : c = ':'
        · cases hsh : tmplGo f cs with
          | nil => rfl
          | cons d r =>
            have hd : cs.head? = some d := by
              rw [← tmplGo_head f cs, hsh]
              rfl
            cases cs with
            | nil => simp at hd
            | cons e cs2 =>
              rw [List.head?_cons] at hd
              injection hd with hd
              subst hd
              subst hcc
              have he : isDigitB e = false := by simpa [lineAt] using hM
              simp [lineAt, he]
        · exact lineAt_cons_ne (beq_eq_false_iff_ne.mpr hcc) _

/-- The whitespace scanner creates no line-number site. -/
theorem wsGo_keeps_lineFree : ∀ (f : Nat) (l : List Char),
    occAny lineAt l = false → occAny lineAt (wsGo f l) = false := by
  intro f
  induction f with
  | zero => intro l h; exact h
  | succ f ih =>
    intro l hocc
    cases l with
    | nil => exact hocc
    | cons c cs =>
      have hM := (occAny_false_cons hocc).1
      have hocc' := (occAny_false_cons hocc).2
      simp only [wsGo]
      split
      · have hdw : occAny lineAt (cs.dropWhile isWsB) = false :=
          occAny_false_dropWhile _ hocc'
        rw [occAny_cons, lineAt_cons_ne (by decide), ih _ hdw]
        rfl
      · rw [occAny_cons, ih cs hocc', Bool.or_false]
        by_cases hc : c = ':'
        · cases hsh : wsGo f cs with
          | nil => rfl
          | cons d r =>
            subst hc
            rcases wsGo_head f cs with hh | ⟨hh, dd, hdd, hwdd⟩
            · rw [hsh, List.head?_cons] at hh
              cases cs with
              | nil => simp at hh
              | cons e cs2 =>
                rw [List.head?_cons] at hh
                injection hh with hh
                subst hh
                have he : isDigitB d = false := by simpa [lineAt] using hM
                simp [lineAt, he]
            · rw [hsh, List.head?_cons] at hh
              injection hh with hh
              subst hh
              simp only [lineAt]
              decide
        · exact lineAt_cons_ne (beq_eq_false_iff_ne.mpr hc) _

/-- The template scanner creates no digit-bracket site. -/
theorem tmplGo_keeps_arrFree : ∀ (f : Nat) (l : List Char),
    occAny arrAt l = false → occAny arrAt (tmplGo f l) = false := by
  intro f
  induction f with
  | zero => intro l h; exact h
  | succ f ih =>
    intro l hocc
    cases l with
    | nil => exact hocc
    | cons c cs =>
      have hM := (occAny_false_cons hocc).1
      have hocc' := (occAny_false_cons hocc).2
      simp only [tmplGo]
      split
      · split
        · have hdw : occAny arrAt (cs.dropWhile (· ≠ '>')) = false :=
            occAny_false_dropWhile _ hocc'
          have htail : occAny arrAt (cs.dropWhile (· ≠ '>')).tail = false := by
            cases hsh : cs.dropWhile (· ≠ '>') with
            | nil => rfl
            | cons a t =>
              rw [hsh] at hdw
              exact occAny_false_tail hdw
          rw [occAny_cons, occAny_cons, occAny_cons, arrAt_cons_ne (by decide),
            arrAt_cons_ne (by decide), arrAt_cons_ne (by decide), ih _ htail]
          rfl
        · exact hocc
      · rename_i hc
        rw [occAny_cons, ih cs hocc', Bool.or_false]
        by_cases hcc : c = '['
        · cases harr : arrAt (c :: tmplGo f cs) with
          | false => rfl
          | true =>
            exfalso
            simp only [arrAt, Bool.and_eq_true, beq_iff_eq] at harr
            obtain ⟨⟨_, hne⟩, hh⟩ := harr
            have hcs : arrAt (c :: cs) = true := by
              simp only [arrAt, Bool.and_eq_true, beq_iff_eq]
              refine ⟨⟨hcc, ?_⟩, tmplGo_digit_head f cs hh⟩
              cases hsh : tmplGo f cs with
              | nil =>
                rw [hsh] at hne
                simp at hne
              | cons d r =>
                have hd : cs.head? = some d := by
                  rw [← tmplGo_head f cs, hsh]
                  rfl
                rw [hsh] at hne
                by_cases hdig : isDigitB d
                · cases cs with
                  | nil => simp at hd
                  | cons e cs2 =>
                    rw [List.head?_cons] at hd
                    injection hd with hd
                    subst hd
                    rw [List.takeWhile_cons_of_pos hdig]
                    simp
                · rw [List.takeWhile_cons_of_neg hdig] at hne
                  simp at hne
            rw [hcs] at hM
            cases hM
        · exact arrAt_cons_ne (beq_eq_false_iff_ne.mpr hcc) _

/-- The whitespace scanner creates no digit-bracket site. -/
theorem wsGo_keeps_arrFree : ∀ (f : Nat) (l : List Char),
    occAny arrAt l = false → occAny arrAt (wsGo f l) = false := by
  intro f
  induction f with
  | zero => intro l h; exact h
  | succ f ih =>
    intro l hocc
    cases l with
    | nil => exact hocc
    | cons c cs =>
      have hM := (occAny_false_cons hocc).1
      have hocc' := (occAny_false_cons hocc).2
      simp only [wsGo]
      split
      · have hdw : occAny arrAt (cs.dropWhile isWsB) = false :=
          occAny_false_dropWhile _ hocc'
        rw [occAny_cons, arrAt_cons_ne (by decide), ih _ hdw]
        rfl
      · rw [occAny_cons, ih cs hocc', Bool.or_false]
        by_cases hcc : c = '['
        · cases harr : arrAt (c :: wsGo f cs) with
          | false => rfl
          | true =>
            exfalso
            simp only [arrAt, Bool.and_eq_true, beq_iff_eq] at harr
            obtain ⟨⟨_, hne⟩, hh⟩ := harr
            have hcs : arrAt (c :: cs) = true := by
              simp only [arrAt, Bool.and_eq_true, beq_iff_eq]
              refine ⟨⟨hcc, ?_⟩, wsGo_digit_head f cs hh⟩
              cases hsh : wsGo f cs with
              | nil =>
                rw [hsh] at hne
                simp at hne
              | cons d r =>
                rw [hsh] at hne
                by_cases hdig : isDigitB d
                · rcases wsGo_head f cs with hhd | ⟨hhd, dd, hdd, hwdd⟩
                  · rw [hsh, List.head?_cons] at hhd
                    cases cs with
                    | nil => simp at hhd
                    | cons e cs2 =>
                      rw [List.head?_cons] at hhd
                      injection hhd with hhd
                      subst hhd
                      rw [List.takeWhile_cons_of_pos hdig]
                      simp
                  · rw [hsh, List.head?_cons] at hhd
                    injection hhd with hhd
                    rw [hhd] at hdig
                    cases hdig
                · rw [List.takeWhile_cons_of_neg hdig] at hne
                  simp at hne
            rw [hcs] at hM
            cases hM
        · exact arrAt_cons_ne (beq_eq_false_iff_ne.mpr hcc) _

/-- The whitespace scanner creates no rewriting template site. -/
theorem wsGo_keeps_tmplFree : ∀ (f : Nat) (l : List Char),
    occAny tmplBadAt l = false → occAny tmplBadAt (wsGo f l) = false := by
  intro f
  induction f with
  | zero => intro l h; exact h
  | succ f ih =>
    intro l hocc
    cases l with
    | nil => exact hocc
    | cons c cs =>
      have hM := (occAny_false_cons hocc).1
      have hocc' := (occAny_false_cons hocc).2
      simp only [wsGo]
      split
      · have hdw : occAny tmplBadAt (cs.dropWhile isWsB) = false :=
          occAny_false_dropWhile _ hocc'
        rw [occAny_cons, tmplBadAt_cons_ne (by decide), ih _ hdw]
        rfl
      · rw [occAny_cons, ih cs hocc', Bool.or_false]
        by_cases hc : c = '<'
        · cases htb : tmplBadAt (c :: wsGo f cs) with
          | false => rfl
          | true =>
            exfalso
            simp only [tmplBadAt, Bool.and_eq_true, beq_iff_eq,
              decide_eq_true_eq] at htb
            obtain ⟨⟨_, hmem⟩, htk⟩ := htb
            have hmem' : '>' ∈ cs := wsGo_mem f cs '>' hmem (by decide)
            have htcs : cs.take 2 = ['T', '>'] := by
              rw [hc] at hM
              simp [tmplBadAt, hmem'] at hM
              exact hM
            cases cs with
            | nil => cases htcs
            | cons a cs1 =>
              cases cs1 with
              | nil =>
                rw [show List.take 2 [a] = [a] from rfl] at htcs
                injection htcs with h1 h2
                cases h2
              | cons b cs2 =>
                have hab : a = 'T' ∧ b = '>' := by
                  rw [show List.take 2 (a :: b :: cs2) = [a, b] from rfl] at htcs
                  injection htcs with h1 h2
                  injection h2 with h2 _
                  exact ⟨h1, h2⟩
                obtain ⟨ha, hb⟩ := hab
                subst ha
                subst hb
                rw [wsGo_take2_T f cs2] at htk
                simp at htk
        · exact tmplBadAt_cons_ne (beq_eq_false_iff_ne.mpr hc) _

/-! ### The canonical form is a fixed point of four of the five rules -/

/-- The canonical form has no line-number site. -/
theorem canon_lineFree (s : List Char) : occAny lineAt (canon s) = false := by
  have hb : occAny lineAt
      (replace_line_pattern (replace_addr_pattern s)) = false :=
    lineGo_self _ _ (le_refl _)
  have hc : occAny lineAt (replace_array_pattern
      (replace_line_pattern (replace_addr_pattern s))) = false :=
    arrGo_keeps_lineFree _ _ hb
  have hd : occAny lineAt (replace_template_pattern (replace_array_pattern
      (replace_line_pattern (replace_addr_pattern s)))) = false :=
    tmplGo_keeps_lineFree _ _ hc
  have he : occAny lineAt (replace_ws_pattern (replace_template_pattern
      (replace_array_pattern (replace_line_pattern
        (replace_addr_pattern s))))) = false :=
    wsGo_keeps_lineFree _ _ hd
  exact occAny_false_rdropWhile lineAt_append _
    (occAny_false_dropWhile _ he)

/-- The canonical form has no digit-bracket site. -/
theorem canon_arrFree (s : List Char) : occAny arrAt (canon s) = false := by
  have hc : occAny arrAt (replace_array_pattern
      (replace_line_pattern (replace_addr_pattern s))) = false :=
    arrGo_self _ _ (le_refl _)
  have hd : occAny arrAt (replace_template_pattern (replace_array_pattern
      (replace_line_pattern (replace_addr_pattern s)))) = false :=
    tmplGo_keeps_arrFree _ _ hc
  have he : occAny arrAt (replace_ws_pattern (replace_template_pattern
      (replace_array_pattern (replace_line_pattern
        (replace_addr_pattern s))))) = false :=
    wsGo_keeps_arrFree _ _ hd
  exact occAny_false_rdropWhile arrAt_append _
    (occAny_false_dropWhile _ he)

/-- The canonical form has no rewriting template site. -/
theorem canon_tmplFree (s : List Char) : occAny tmplBadAt (canon s) = false := by
  have hd : occAny tmplBadAt (replace_template_pattern (replace_array_pattern
      (replace_line_pattern (replace_addr_pattern s)))) = false :=
    tmplGo_self _ _ (le_refl _)
  have he : occAny tmplBadAt (replace_ws_pattern (replace_template_pattern
      (replace_array_pattern (replace_line_pattern
        (replace_addr_pattern s))))) = false :=
    wsGo_keeps_tmplFree _ _ hd
  exact occAny_false_rdropWhile tmplBadAt_append _
    (occAny_false_dropWhile _ he)

/-- The canonical form has no adjacent whitespace pair. -/
theorem canon_wsFree (s : List Char) : occAny wsPairAt (canon s) = false := by
  have he : occAny wsPairAt (replace_ws_pattern (replace_template_pattern
      (replace_array_pattern (replace_line_pattern
        (replace_addr_pattern s))))) = false :=
    wsGo_self _ _ (le_refl _)
  exact occAny_false_rdropWhile wsPairAt_append _
    (occAny_false_dropWhile _ he)

/-- Trimming fixes the canonical form. -/
theorem canon_trim_fixed (s : List Char) : trim_view (canon s) = canon s := by
  have h1 : (canon s).dropWhile isWsB = canon s := by
    cases hsh : canon s with
    | nil => rfl
    | cons c cs =>
      have := canon_head_not_ws s c (by rw [hsh]; rfl)
      rw [List.dropWhile_cons_of_neg (by rw [this]; exact Bool.false_ne_true)]
  have h2 : (canon s).rdropWhile isWsB = canon s := by
    rw [List.rdropWhile_eq_self_iff]
    intro hl
    have := canon_getLast_not_ws s ((canon s).getLast hl)
      (List.getLast?_eq_getLast _ hl)
    rw [this]
    exact Bool.false_ne_true
  unfold trim_view
  rw [h1, h2]

/-- C2 amended: canonicalization is idempotent on every input whose
canonical form contains no `0x` immediately followed by a hex digit — the
only pattern a canonical form can still contain, since the substitution
text `0xADDR` itself re-matches the address rule. -/
theorem c2_canon_idempotent_amended (s : List Char)
    (h : occAny addrAt (canon s) = false) : canon (canon s) = canon s := by
  conv =>
    lhs
    rw [canon]
  rw [show replace_addr_pattern (canon s) = canon s from
    addrGo_fix _ _ h]
  rw [show replace_line_pattern (canon s) = canon s from
    lineGo_fix _ _ (canon_lineFree s)]
  rw [show replace_array_pattern (canon s) = canon s from
    arrGo_fix _ _ (canon_arrFree s)]
  rw [show replace_template_pattern (canon s) = canon s from
    tmplGo_fix _ _ (canon_tmplFree s)]
  rw [show replace_ws_pattern (canon s) = canon s from
    wsGo_fix _ _ (canon_wsFree s)]
  exact canon_trim_fixed s

/-- C2 witness: a representative canonical line whose canonical form has
no address site; on it a second canonicalization changes nothing. -/
theorem c2_canon_idempotent_amended_witness :
    occAny addrAt (canon "Invalid read of size 4 at main (a.c:7)".data) = false ∧
    canon (canon "Invalid read of size 4 at main (a.c:7)".data) =
      canon "Invalid read of size 4 at main (a.c:7)".data :=
  ⟨by decide, c2_canon_idempotent_amended _ (by decide)⟩

/-! ### Lemmas about the run -/

/-- Length of a run body. -/
theorem c6body_len (i : Nat) : (c6body i).length = 14 + i := by
  show ("Invalid read ".data ++ List.replicate (i + 1) 'a').length = 14 + i
  rw [List.length_append, List.length_replicate,
    show ("Invalid read ".data).length = 13 from rfl]
  omega

/-- A run body is nonempty. -/
theorem c6body_ne_nil (i : Nat) : c6body i ≠ [] := by
  intro hc
  have h := congrArg List.length hc
  rw [c6body_len] at h
  simp only [List.length_nil] at h
  omega

/-- Every character of a run body occurs in `Invalid read a`. -/
theorem c6body_mem {i : Nat} {c : Char} (hc : c ∈ c6body i) :
    c ∈ "Invalid read a".data := by
  rcases List.mem_append.mp hc with h | h
  · rw [show "Invalid read a".data = "Invalid read ".data ++ ['a'] from rfl]
    exact List.mem_append_left _ h
  · rw [List.eq_of_mem_replicate h]
    decide

/-- `occAny` is false on a list none of whose characters can head a match. -/
theorem occAny_no_trigger {M : List Char → Bool} {trig : Char → Bool}
    (hnil : M [] = false)
    (hM : ∀ (c : Char) (cs : List Char), trig c = false → M (c :: cs) = false) :
    ∀ l : List Char, (∀ c ∈ l, trig c = false) → occAny M l = false := by
  intro l
  induction l with
  | nil => intro _; exact hnil
  | cons c cs ih =>
    intro h
    rw [occAny_cons, hM c cs (h c (List.mem_cons_self c cs)),
      ih (fun d hd => h d (List.mem_cons_of_mem c hd))]
    rfl

/-- `addrAt` needs a leading zero. -/
theorem addrAt_cons_ne {c : Char} (h : (c == '0') = false) (cs : List Char) :
    addrAt (c :: cs) = false := by
  cases cs with
  | nil => rfl
  | cons b t =>
    cases t with
    | nil => rfl
    | cons d t2 => simp [addrAt, h]

/-- A run body has no address site. -/
theorem c6body_addrFree (i : Nat) : occAny addrAt (c6body i) = false :=
  occAny_no_trigger rfl (fun _ cs h => addrAt_cons_ne h cs) _
    (fun c hc => (by decide : ∀ c ∈ "Invalid read a".data, (c == '0') = false)
      c (c6body_mem hc))

/-- A run body has no line-number site. -/
theorem c6body_lineFree (i : Nat) : occAny lineAt (c6body i) = false :=
  occAny_no_trigger rfl (fun _ cs h => lineAt_cons_ne h cs) _
    (fun c hc => (by decide : ∀ c ∈ "Invalid read a".data, (c == ':') = false)
      c (c6body_mem hc))

/-- A run body has no digit-bracket site. -/
theorem c6body_arrFree (i : Nat) : occAny arrAt (c6body i) = false :=
  occAny_no_trigger rfl (fun _ cs h => arrAt_cons_ne h cs) _
    (fun c hc => (by decide : ∀ c ∈ "Invalid read a".data, (c == '[') = false)
      c (c6body_mem hc))

/-- A run body has no template site. -/
theorem c6body_tmplFree (i : Nat) : occAny tmplBadAt (c6body i) = false :=
  occAny_no_trigger rfl (fun _ cs h => tmplBadAt_cons_ne h cs) _
    (fun c hc => (by decide : ∀ c ∈ "Invalid read a".data, (c == '<') = false)
      c (c6body_mem hc))

/-- `occAny wsPairAt` is false on a run of `a`s. -/
theorem occAny_ws_rep : ∀ n : Nat, occAny wsPairAt (List.replicate n 'a') = false := by
  intro n
  induction n with
  | zero => rfl
  | succ m ih =>
    rw [List.replicate_succ, occAny_cons,
      wsPairAt_cons_ne (by decide) (List.replicate m 'a'), ih]
    rfl

/-- The pair of an `a` and a run of `a`s is not a whitespace pair. -/
theorem wsPair_a_rep (i : Nat) : wsPairAt ('a' :: List.replicate i 'a') = false :=
  wsPairAt_cons_ne (by decide) _

/-- Unfolding `wsPairAt` on two cons cells. -/
theorem wsPairAt_cons2 (a b : Char) (t : List Char) :
    wsPairAt (a :: b :: t) = (isWsB a && isWsB b) := rfl

/-- A run body has no adjacent whitespace pair: its single spaces are each
followed by a letter. -/
theorem c6body_wsFree (i : Nat) : occAny wsPairAt (c6body i) = false := by
  rw [show c6body i = 'I' :: 'n' :: 'v' :: 'a' :: 'l' :: 'i' :: 'd' :: ' ' ::
      'r' :: 'e' :: 'a' :: 'd' :: ' ' :: 'a' :: List.replicate i 'a' from by
    show "Invalid read ".data ++ List.replicate (i + 1) 'a' = _
    rw [List.replicate_succ]
    exact rfl]
  simp only [occAny_cons, wsPairAt_cons2, wsPair_a_rep, occAny_ws_rep]
  decide

/-- Trimming fixes a run body. -/
theorem c6body_trim (i : Nat) : trim_view (c6body i) = c6body i := by
  have hcons : c6body i =
      'I' :: ("nvalid read ".data ++ List.replicate (i + 1) 'a') := rfl
  have hsnoc : c6body i =
      ('I' :: ("nvalid read ".data ++ List.replicate i 'a')) ++ ['a'] := by
    rw [hcons, List.replicate_succ' i 'a']
    simp [List.append_assoc]
  unfold trim_view
  rw [hcons, List.dropWhile_cons_of_neg (by decide), ← hcons, hsnoc,
    List.rdropWhile_concat_neg _ _ _ (by decide)]

/-- Canonicalization fixes a run body: none of the five substitution sites
occurs in it and it has no edge whitespace. -/
theorem c6body_canon (i : Nat) : canon (c6body i) = c6body i := by
  rw [canon]
  rw [show replace_addr_pattern (c6body i) = c6body i from
    addrGo_fix _ _ (c6body_addrFree i)]
  rw [show replace_line_pattern (c6body i) = c6body i from
    lineGo_fix _ _ (c6body_lineFree i)]
  rw [show replace_array_pattern (c6body i) = c6body i from
    arrGo_fix _ _ (c6body_arrFree i)]
  rw [show replace_template_pattern (c6body i) = c6body i from
    tmplGo_fix _ _ (c6body_tmplFree i)]
  rw [show replace_ws_pattern (c6body i) = c6body i from
    wsGo_fix _ _ (c6body_wsFree i)]
  exact c6body_trim i

/-- Cons form of a run line. -/
theorem c6line_cons (i : Nat) :
    c6line i = '=' :: '=' :: '1' :: '0' :: '=' :: '=' :: ' ' :: c6body i := rfl

/-- Length of a run line. -/
theorem c6line_len (i : Nat) : (c6line i).length = 21 + i := by
  show ("==10== ".data ++ c6body i).length = 21 + i
  rw [List.length_append, c6body_len, show ("==10== ".data).length = 7 from rfl]
  omega

/-- Any line headed by `==10==` with at least one more byte is a vg-line. -/
theorem vg_line_head10 (R : List Char) :
    matches_vg_line ('=' :: '=' :: '1' :: '0' :: '=' :: '=' :: R) = true := by
  have h4 : ¬ (('=' :: '=' :: '1' :: '0' :: '=' :: '=' :: R).length < 4) := by
    simp only [List.length_cons]
    omega
  have h5 : ¬ (('=' :: '=' :: '1' :: '0' :: '=' :: '=' :: R).length ≤ 5) := by
    simp only [List.length_cons]
    omega
  unfold matches_vg_line
  rw [if_neg h4]
  show (if ('=' :: '=' :: '1' :: '0' :: '=' :: '=' :: R).length ≤ 5 then false
        else true) = true
  rw [if_neg h5]

/-- Every run line is accepted by the vg-line classifier. -/
theorem c6line_vg (i : Nat) : matches_vg_line (c6line i) = true := by
  rw [c6line_cons]
  exact vg_line_head10 (' ' :: c6body i)

/-- Stripping the vg prefix of a run line leaves its body. -/
theorem c6line_pfx (i : Nat) : replace_pfx (c6line i) = c6body i := by
  have hvg := c6line_vg i
  unfold replace_pfx
  rw [hvg, if_pos rfl, c6line_cons]
  rfl

/-- Unfolding `containsSub` on a cons cell. -/
theorem containsSub_cons (c : Char) (t pat : List Char) :
    containsSub (c :: t) pat = (pat.isPrefixOf (c :: t) || containsSub t pat) := rfl

/-- A run body starts a report: it begins with `Invalid read`. -/
theorem c6body_start (i : Nat) : matches_start_pattern (c6body i) = true := by
  have h : containsSub (c6body i) "Invalid read".data = true := by
    rw [show c6body i = 'I' :: ("nvalid read ".data ++ List.replicate (i + 1) 'a')
        from rfl,
      containsSub_cons,
      show List.isPrefixOf "Invalid read".data
        ('I' :: ("nvalid read ".data ++ List.replicate (i + 1) 'a')) = true from rfl]
    rfl
  exact List.any_eq_true.mpr ⟨"Invalid read".data, by decide, h⟩

/-- A run body is not a bytes header: it contains no digit at all. -/
theorem c6body_bytes (i : Nat) : matches_bytes_head (c6body i) = false := by
  have h1 : List.dropWhile (fun c => !isDigitB c) (c6body i) = [] := by
    rw [List.dropWhile_eq_nil_iff]
    intro c hc
    exact (by decide : ∀ c ∈ "Invalid read a".data, (!isDigitB c) = true)
      c (c6body_mem hc)
  unfold matches_bytes_head
  rw [h1]
  rfl

/-- A run body is not discarded by the assembler's emptiness test. -/
theorem c6body_raw_trim (i : Nat) :
    trim_view (process_raw_line c6opt (c6body i)) ≠ [] := by
  rw [show process_raw_line c6opt (c6body i) = c6body i from rfl, c6body_trim]
  exact c6body_ne_nil i

/-- Length of a run key. -/
theorem c6key_len (i : Nat) : (c6key i).length = 15 + i := by
  show (c6body i ++ ['\n']).length = 15 + i
  rw [List.length_append, c6body_len, show (['\n'] : List Char).length = 1 from rfl]
  omega

/-- The run's keys are pairwise distinct: block `n`'s key is not among the
keys of the earlier blocks. -/
theorem c6key_not_mem (n : Nat) : c6key n ∉ ((List.range n).reverse).map c6key := by
  intro h
  rcases List.mem_map.mp h with ⟨j, hj, hkey⟩
  have hjn : j < n := List.mem_range.mp (List.mem_reverse.mp hj)
  have hlen := congrArg List.length hkey
  rw [c6key_len, c6key_len] at hlen
  omega

/-- The signature key of the run's `n`-th assembled block. -/
theorem c6run_key (n : Nat) : generate_signature_key c6opt (c6run n) = c6key n := by
  simp [generate_signature_key, c6opt, c6run, c6key]

/-- Extending the seen set with the next key. -/
theorem c6seen_succ (n : Nat) :
    c6key n :: ((List.range n).reverse).map c6key =
      ((List.range (n + 1)).reverse).map c6key := by
  rw [List.range_succ n, List.reverse_append]
  simp

/-- Extending the pending queue with the next block. -/
theorem c6pending_succ (n : Nat) :
    (List.range n).map c6block ++ [(c6body n ++ ['\n']) ++ ['\n']] =
      (List.range (n + 1)).map c6block := by
  rw [List.range_succ n]
  simp [c6block, List.append_assoc]

/-- Flushing the run's `n`-th assembled block succeeds and stores it as the
`n + 1`-st pending block: the key is fresh and the pending count `n` passes
the pre-append validation whenever `n ≤ 1000`. -/
theorem c6_flush (n : Nat) (h : n ≤ 1000) :
    flush c6opt (c6run n) = .ok (c6flushed (n + 1)) := by
  have h1 : (c6run n).raw ≠ [] := by
    show c6body n ++ ['\n'] ≠ []
    simp
  have h2 : (c6run n).raw.length ≤ maxBlockSize := by
    show (c6body n ++ ['\n']).length ≤ maxBlockSize
    rw [List.length_append, c6body_len, show (['\n'] : List Char).length = 1 from rfl,
      show maxBlockSize = 10485760 from rfl]
    omega
  have h3 : generate_signature_key c6opt (c6run n) ∉ (c6run n).seen := by
    rw [c6run_key]
    exact c6key_not_mem n
  have h5 : (c6run n).pending.length ≤ maxPendingBlocks := by
    show ((List.range n).map c6block).length ≤ maxPendingBlocks
    rw [List.length_map, List.length_range, show maxPendingBlocks = 1000 from rfl]
    exact h
  have he := flush_fresh_stream c6opt (c6run n) h1 h2 h3 (by decide) h5
  rw [he, c6run_key]
  have hseen : c6key n :: (c6run n).seen =
      ((List.range (n + 1)).reverse).map c6key := by
    show c6key n :: ((List.range n).reverse).map c6key = _
    exact c6seen_succ n
  have hpend : (c6run n).pending ++ [(c6run n).raw ++ ['\n']] =
      (List.range (n + 1)).map c6block := by
    show (List.range n).map c6block ++ [(c6body n ++ ['\n']) ++ ['\n']] = _
    exact c6pending_succ n
  rw [hseen, hpend]
  rfl

/-- Appending a run body to the cleared state yields the next run state. -/
theorem c6_addLine (k : Nat) :
    addLineState c6opt (c6body k) (c6flushed k) = c6run k := by
  unfold addLineState
  simp [c6flushed, c6run, process_raw_line, c6opt, c6body_canon]

/-- Processing one run line from a state that flushes to `c6flushed k`
assembles run state `k`: the line passes the vg filter, starts a report,
is no bytes header, and survives the emptiness test. -/
theorem c6_process_line (k : Nat) (st : ProcState)
    (hflush : flush c6opt st = .ok (c6flushed k)) :
    process_line c6opt st (c6line k) = .ok (c6run k) := by
  have hm' : ¬(c6opt.trim ∧ c6opt.stream_mode ∧
      containsSub (c6line k) c6opt.marker) :=
    fun hc => absurd hc.1 (by decide)
  have hv : matches_vg_line (c6line k) = true := c6line_vg k
  have hp : replace_pfx (c6line k) = c6body k := c6line_pfx k
  have hstart : matches_start_pattern (c6body k) = true := c6body_start k
  have hb : matches_bytes_head (c6body k) = false := c6body_bytes k
  have htv : trim_view (process_raw_line c6opt (c6body k)) ≠ [] := c6body_raw_trim k
  have haddst : addLineState c6opt (c6body k) (c6flushed k) = c6run k := c6_addLine k
  simp [process_line, hm', hv, hp, hstart, hflush, hb, htv, haddst]

/-- Feeding one run line from a state that flushes to `c6flushed k`. -/
theorem c6_feed_one (k : Nat) (hk : k ≤ 1000) (st : ProcState)
    (hflush : flush c6opt st = .ok (c6flushed k)) :
    feedLines c6opt st [c6line k] = (c6run k, none) := by
  have hlen : ¬ (maxLineLength < (c6line k).length) := by
    rw [c6line_len, show maxLineLength = 1048576 from rfl]
    omega
  have hpl := c6_process_line k st hflush
  simp only [feedLines]
  rw [if_neg hlen, hpl]

/-- The read loop over the first `n + 1` run lines ends in run state `n`
without error, for `n ≤ 1000`. -/
theorem c6_feed : ∀ n : Nat, n ≤ 1000 →
    feedLines c6opt initState (c6input (n + 1)) = (c6run n, none) := by
  intro n
  induction n with
  | zero =>
    intro _
    have h1 : c6input 1 = [c6line 0] := rfl
    rw [h1]
    exact c6_feed_one 0 (by omega) initState rfl
  | succ m ih =>
    intro hm
    have hmle : m ≤ 1000 := by omega
    have hsteps : c6input (m + 2) = c6input (m + 1) ++ [c6line (m + 1)] := by
      unfold c6input
      rw [List.range_succ (m + 1)]
      simp
    rw [hsteps, feedLines_append_none c6opt [c6line (m + 1)] (ih hmle)]
    exact c6_feed_one (m + 1) hm (c6run m) (c6_flush m hmle)

/-- A run whose read loop succeeds and whose final flush succeeds reports
no error and ends at the pending-output stage. -/
theorem runFrom_feed_flush (o : Opts) (st st1 st2 : ProcState)
    (lines : List (List Char))
    (hfeed : feedLines o st lines = (st1, none))
    (hflush : flush o st1 = .ok st2) :
    runFrom o st lines = (output_pending_blocks o st2, none) := by
  unfold runFrom
  rw [hfeed]
  show (match flush o st1 with
        | .error e => (st1, some e)
        | .ok stf => (output_pending_blocks o stf, none)) = _
  rw [hflush]

/-- Without trimming, the pending-output stage keeps the pending queue. -/
theorem c6_output_pending (n : Nat) :
    (output_pending_blocks c6opt (c6flushed n)).pending = (c6flushed n).pending := by
  unfold output_pending_blocks
  rw [if_pos (show (!c6opt.trim || (c6flushed n).marker_found) = true from rfl)]

/-- The pending queue of the `n`-times-flushed state holds `n` blocks. -/
theorem c6flushed_pending_len (n : Nat) : (c6flushed n).pending.length = n := by
  show ((List.range n).map c6block).length = n
  rw [List.length_map, List.length_range]

/-- C6 counterexample: a stream-mode run over 1001 report blocks with
pairwise distinct signature keys completes without any fatal error and ends
with 1001 blocks in the pending queue, exceeding `MAX_PENDING_BLOCKS`: the
pending count is validated before each append, so the 1001st block is
stored without an error ever being raised. -/
theorem c6_pending_exceeds_bound :
    (process_stream c6opt (c6input 1001)).2 = none ∧
    maxPendingBlocks < ((process_stream c6opt (c6input 1001)).1).pending.length := by
  have hfeed : feedLines c6opt initState (c6input 1001) = (c6run 1000, none) :=
    c6_feed 1000 (by omega)
  have hflush : flush c6opt (c6run 1000) = .ok (c6flushed 1001) :=
    c6_flush 1000 (by omega)
  have hrun : process_stream c6opt (c6input 1001) =
      (output_pending_blocks c6opt (c6flushed 1001), none) := by
    unfold process_stream
    exact runFrom_feed_flush c6opt initState (c6run 1000) (c6flushed 1001)
      (c6input 1001) hfeed hflush
  rw [hrun]
  refine ⟨rfl, ?_⟩
  show maxPendingBlocks <
    (output_pending_blocks c6opt (c6flushed 1001)).pending.length
  rw [c6_output_pending, c6flushed_pending_len]
  decide

end Vglog
